import Mathlib

/-!
The package `loadtester` (go-loadtester): metrics aggregation and the dispatch loop.

A shallow embedding of `metrics.go`, of the statistics part of `httpclient.go`
(`stat`, `addStat`, `SummarizeMetrics`) and of `LoadTester.Start` from
`loadtester.go`, followed by theorems about them.

Conventions of the embedding.

* `time.Duration` is `int64`: durations are `Int`, and the one place where the code
  does arithmetic on them (`l.Total += latency`) wraps with `wrapInt64`.
* `Requests`, `SuccessCount` (`uint64`) and the `StatusCodes` counters (`int`) are
  incremented once per element of the `stats` slice; a Go slice has fewer than `2^63`
  elements, so these counters cannot wrap and are embedded without a modulus.
* `float64` is embedded as `F64`: a rational number, an infinity, or NaN; conversions
  and quotients round as IEEE 754 binary64 does (`F64.ofRat`).
* The `estimator` interface is implemented in the source by a t-digest from a library
  outside the repository. Its state is embedded as the sequence of samples added so
  far and its answers are a parameter (`Runtime.estimatorGet`).
* `SummarizeMetrics` is embedded twice: on values, and over a memory that holds the
  client and the t-digests (namespace `Heap`); the second refines the first.
* Go maps are association lists with one entry per key, read with `mapGet` and written
  with `mapSet`.
-/

namespace loadtester

/-! ## Machine numbers -/

/-- Two's-complement wrap-around of an integer into the range of Go's `int64`. -/
def wrapInt64 (x : Int) : Int := (x + 2 ^ 63) % 2 ^ 64 - 2 ^ 63

/-- Go `float64` values: a finite value (a rational; the two zeros are not told apart),
an infinity, or NaN. -/
inductive F64 where
  | fin (q : ℚ)
  | posInf
  | negInf
  | nan
deriving DecidableEq

/-- Rounding of a rational to the nearest integer, ties to the even one. -/
def roundHalfEven (y : ℚ) : Int :=
  if y - (⌊y⌋ : ℚ) < 1 / 2 then ⌊y⌋
  else if 1 / 2 < y - (⌊y⌋ : ℚ) then ⌊y⌋ + 1
  else if ⌊y⌋ % 2 = 0 then ⌊y⌋ else ⌊y⌋ + 1

/-- The `float64` nearest to a rational, as IEEE 754 binary64 rounds (to nearest, ties
to even): 53 significant bits, with the exponent of the leading bit between -1022 and
1023; below that range the spacing stays `2^-1074`, beyond it the result is an
infinity. -/
def F64.ofRat (x : ℚ) : F64 :=
  let e : Int := max (Int.log 2 |x|) (-1022)
  let u : ℚ := (2 : ℚ) ^ (e - 52)
  let r : ℚ := (roundHalfEven (x / u) : ℚ) * u
  if (2 : ℚ) ^ (1024 : ℕ) ≤ r then .posInf
  else if r ≤ -((2 : ℚ) ^ (1024 : ℕ)) then .negInf
  else .fin r

/-- The conversion `float64(i)` of an integer. -/
def F64.ofInt (i : Int) : F64 := F64.ofRat (i : ℚ)

/-- The quotient `x / y` of two `float64`s. -/
def F64.div : F64 → F64 → F64
  | .nan, _ => .nan
  | _, .nan => .nan
  | .fin a, .fin b =>
    if b = 0 then
      if a = 0 then .nan else if 0 < a then .posInf else .negInf
    else F64.ofRat (a / b)
  | .fin _, .posInf => .fin 0
  | .fin _, .negInf => .fin 0
  | .posInf, .fin b => if 0 ≤ b then .posInf else .negInf
  | .negInf, .fin b => if 0 ≤ b then .negInf else .posInf
  | .posInf, .posInf => .nan
  | .posInf, .negInf => .nan
  | .negInf, .posInf => .nan
  | .negInf, .negInf => .nan

/-- The quotient `float64(a) / float64(b)` of two integers: both are converted, then
divided; `0 / 0` is NaN. -/
def F64.divInts (a b : Int) : F64 := F64.div (F64.ofInt a) (F64.ofInt b)

/-- What the embedding takes as given from outside the repository. -/
structure Runtime where
  /-- The answer of `estimator.Get` after the listed samples were passed to
  `estimator.Add`, in that order (t-digest with compression 100 in the source). -/
  estimatorGet : List F64 → F64 → F64
  /-- The `int64` that the platform produces when a `float64` that `int64` cannot
  represent (NaN, an infinity, a value out of range) is converted; the Go
  specification leaves it implementation-dependent. -/
  indefinite : Int

/-- The conversion `time.Duration(f)` of a `float64`: truncation toward zero. -/
def F64.toDuration (rt : Runtime) : F64 → Int
  | .fin q =>
    let t := Int.tdiv q.num (q.den : Int)
    if -(2 ^ 63) ≤ t ∧ t < 2 ^ 63 then t else rt.indefinite
  | _ => rt.indefinite

/-! ## Go maps -/

/-- Map read `m[k]` with the comma-ok result as an `Option`. -/
def mapGet {κ ν : Type} [DecidableEq κ] : List (κ × ν) → κ → Option ν
  | [], _ => none
  | (k', v) :: rest, k => if k' = k then some v else mapGet rest k

/-- Map write `m[k] = v`. -/
def mapSet {κ ν : Type} [DecidableEq κ] : List (κ × ν) → κ → ν → List (κ × ν)
  | [], k, v => [(k, v)]
  | (k', v') :: rest, k, v =>
    if k' = k then (k, v) :: rest else (k', v') :: mapSet rest k v

/-! ## metrics.go -/

/-- The struct `LatencyMetrics`; `estimator` holds the samples passed to the estimator. -/
structure LatencyMetrics where
  Total : Int
  Mean : Int
  P50 : Int
  P90 : Int
  P95 : Int
  P99 : Int
  Max : Int
  Min : Int
  estimator : List F64
deriving DecidableEq

/-- The function `newLatencyMetrics`: zero values and a fresh estimator. -/
def newLatencyMetrics : LatencyMetrics :=
  { Total := 0, Mean := 0, P50 := 0, P90 := 0, P95 := 0, P99 := 0, Max := 0, Min := 0,
    estimator := [] }

/-- The method `LatencyMetrics.Add`. -/
def LatencyMetrics.Add (l : LatencyMetrics) (latency : Int) : LatencyMetrics :=
  let l := { l with Total := wrapInt64 (l.Total + latency) }
  let l := if latency > l.Max then { l with Max := latency } else l
  let l := if latency < l.Min ∨ l.Min = 0 then { l with Min := latency } else l
  { l with estimator := l.estimator ++ [F64.ofInt latency] }

/-- The method `LatencyMetrics.Quantile`. -/
def LatencyMetrics.Quantile (rt : Runtime) (l : LatencyMetrics) (nth : F64) : Int :=
  (rt.estimatorGet l.estimator nth).toDuration rt

/-- The struct `Metrics`; the unexported set `errors` is a map to the unit type. -/
structure Metrics where
  Latencies : LatencyMetrics
  LatenciesSuccess : LatencyMetrics
  Requests : Nat
  Success : F64
  StatusCodes : List (Int × Int)
  Errors : List String
  errors : List (String × Unit)
  SuccessCount : Nat
deriving DecidableEq

/-- The function `newMetrics`. -/
def newMetrics : Metrics :=
  { Latencies := newLatencyMetrics, LatenciesSuccess := newLatencyMetrics,
    Requests := 0, Success := .fin 0, StatusCodes := [], Errors := [], errors := [],
    SuccessCount := 0 }

/-! ## httpclient.go -/

/-- The struct `stat`. -/
structure stat where
  name : String
  statusCode : Int
  latency : Int
  err : String
deriving DecidableEq

/-- The struct `HttpClient`, reduced to the field the statistics use. -/
structure HttpClient where
  stats : List stat
deriving DecidableEq

/-- The method `HttpClient.addStat`; a nil `error` is `none`, any other carries the
text of its `Error()`. -/
def HttpClient.addStat (h : HttpClient) (name : String) (statusCode : Int) (latency : Int)
    (err : Option String) : HttpClient :=
  let errString := match err with
    | some e => e
    | none => ""
  { h with stats := h.stats ++ [{ name := name, statusCode := statusCode,
                                   latency := latency, err := errString }] }

/-- Lines 156-169 of `SummarizeMetrics`: one stat is added to the metrics of its label. -/
def recordStat (metrics : Metrics) (s : stat) : Metrics :=
  let metrics := { metrics with Requests := metrics.Requests + 1 }
  let metrics := { metrics with
    StatusCodes := mapSet metrics.StatusCodes s.statusCode
      ((mapGet metrics.StatusCodes s.statusCode).getD 0 + 1) }
  let metrics := { metrics with Latencies := metrics.Latencies.Add s.latency }
  let metrics :=
    if 200 ≤ s.statusCode ∧ s.statusCode < 300 then
      { metrics with LatenciesSuccess := metrics.LatenciesSuccess.Add s.latency,
                     SuccessCount := metrics.SuccessCount + 1 }
    else metrics
  if s.err ≠ "" then
    if (mapGet metrics.errors s.err).isNone then
      { metrics with errors := mapSet metrics.errors s.err (),
                     Errors := metrics.Errors ++ [s.err] }
    else metrics
  else metrics

/-- The body of the first loop of `SummarizeMetrics` (lines 151-171). -/
def summarizeStep (mapMetrics : List (String × Metrics)) (s : stat) :
    List (String × Metrics) :=
  match mapGet mapMetrics s.name with
  | some metrics => mapSet mapMetrics s.name (recordStat metrics s)
  | none =>
    let metrics := newMetrics
    let mapMetrics := mapSet mapMetrics s.name metrics
    mapSet mapMetrics s.name (recordStat metrics s)

/-- The body of the second loop of `SummarizeMetrics` (lines 175-186). -/
def finalizeMetrics (rt : Runtime) (metrics : Metrics) : Metrics :=
  let metrics := { metrics with
    Success := F64.divInts (metrics.SuccessCount : Int) (metrics.Requests : Int) }
  let lat := metrics.Latencies
  let lat := { lat with
    Mean := (F64.divInts lat.Total (metrics.Requests : Int)).toDuration rt }
  let lat := { lat with P50 := lat.Quantile rt (F64.ofRat (50 / 100)) }
  let lat := { lat with P90 := lat.Quantile rt (F64.ofRat (90 / 100)) }
  let lat := { lat with P95 := lat.Quantile rt (F64.ofRat (95 / 100)) }
  let lat := { lat with P99 := lat.Quantile rt (F64.ofRat (99 / 100)) }
  let metrics := { metrics with Latencies := lat }
  let ls := metrics.LatenciesSuccess
  let ls := { ls with
    Mean := (F64.divInts ls.Total (metrics.SuccessCount : Int)).toDuration rt }
  let ls := { ls with P50 := ls.Quantile rt (F64.ofRat (50 / 100)) }
  let ls := { ls with P90 := ls.Quantile rt (F64.ofRat (90 / 100)) }
  let ls := { ls with P95 := ls.Quantile rt (F64.ofRat (95 / 100)) }
  let ls := { ls with P99 := ls.Quantile rt (F64.ofRat (99 / 100)) }
  { metrics with LatenciesSuccess := ls }

/-- The first loop of `SummarizeMetrics`: the stats log folded into a map by label. -/
def accumulate (stats : List stat) : List (String × Metrics) :=
  stats.foldl summarizeStep []

/-- The second loop of `SummarizeMetrics`: every entry of the map is overwritten with
its finalized value. -/
def finalizeAll (rt : Runtime) (mapMetrics : List (String × Metrics)) :
    List (String × Metrics) :=
  mapMetrics.foldl (fun acc kv => mapSet acc kv.1 (finalizeMetrics rt kv.2)) mapMetrics

/-- The method `HttpClient.SummarizeMetrics`: the returned map, and the client after
the call. -/
def HttpClient.SummarizeMetrics (rt : Runtime) (h : HttpClient) :
    List (String × Metrics) × HttpClient :=
  (finalizeAll rt (accumulate h.stats), h)

/-! ## metrics.go and httpclient.go over a memory

The definitions above treat a `LatencyMetrics` as a value that carries the samples of
its estimator. In the source the field `estimator` is a pointer to a t-digest, `Add`
writes through that pointer, and `SummarizeMetrics` is a method on a pointer to the
client. The definitions of this section follow the same source lines with these
objects in a memory: the client, and the t-digests allocated so far, an estimator being
the index of its t-digest. The maps and slices that a call makes are reachable from the
map it returns only and stay values. These definitions are the embedding for statements
about what a call changes. -/

/-- The objects a call can reach: the client behind the receiver `h`, and the t-digests
allocated so far, each with the samples added to it. -/
structure Memory where
  client : HttpClient
  digests : List (List F64)
deriving DecidableEq

namespace Heap

/-- The function `newTdigestEstimator`: a fresh t-digest and the pointer to it. -/
def newTdigestEstimator (mem : Memory) : Nat × Memory :=
  (mem.digests.length, { mem with digests := mem.digests ++ [[]] })

/-- The method `tdigestEstimator.Add`: the sample is added to the t-digest behind the
pointer. -/
def tdigestAdd (mem : Memory) (e : Nat) (s : F64) : Memory :=
  { mem with digests := mem.digests.set e (mem.digests[e]?.getD [] ++ [s]) }

/-- The method `tdigestEstimator.Get`: an answer computed from the samples of the
t-digest behind the pointer, which it leaves as they are. -/
def tdigestGet (rt : Runtime) (mem : Memory) (e : Nat) (q : F64) : F64 :=
  rt.estimatorGet (mem.digests[e]?.getD []) q

/-- The struct `LatencyMetrics` with the pointer `estimator`. -/
structure LatencyMetrics where
  Total : Int
  Mean : Int
  P50 : Int
  P90 : Int
  P95 : Int
  P99 : Int
  Max : Int
  Min : Int
  estimator : Nat
deriving DecidableEq

/-- The function `newLatencyMetrics`. -/
def newLatencyMetrics (mem : Memory) : LatencyMetrics × Memory :=
  let (e, mem) := newTdigestEstimator mem
  ({ Total := 0, Mean := 0, P50 := 0, P90 := 0, P95 := 0, P99 := 0, Max := 0, Min := 0,
     estimator := e }, mem)

/-- The method `LatencyMetrics.Add`. -/
def LatencyMetrics.Add (l : LatencyMetrics) (latency : Int) (mem : Memory) :
    LatencyMetrics × Memory :=
  let l := { l with Total := wrapInt64 (l.Total + latency) }
  let l := if latency > l.Max then { l with Max := latency } else l
  let l := if latency < l.Min ∨ l.Min = 0 then { l with Min := latency } else l
  (l, tdigestAdd mem l.estimator (F64.ofInt latency))

/-- The method `LatencyMetrics.Quantile`. -/
def LatencyMetrics.Quantile (rt : Runtime) (l : LatencyMetrics) (nth : F64)
    (mem : Memory) : Int :=
  (tdigestGet rt mem l.estimator nth).toDuration rt

/-- The struct `Metrics`. -/
structure Metrics where
  Latencies : LatencyMetrics
  LatenciesSuccess : LatencyMetrics
  Requests : Nat
  Success : F64
  StatusCodes : List (Int × Int)
  Errors : List String
  errors : List (String × Unit)
  SuccessCount : Nat
deriving DecidableEq

/-- The function `newMetrics`. -/
def newMetrics (mem : Memory) : Metrics × Memory :=
  let (lat, mem) := newLatencyMetrics mem
  let (ls, mem) := newLatencyMetrics mem
  ({ Latencies := lat, LatenciesSuccess := ls, Requests := 0, Success := .fin 0,
     StatusCodes := [], Errors := [], errors := [], SuccessCount := 0 }, mem)

/-- The method `HttpClient.addStat`. -/
def addStat (mem : Memory) (name : String) (statusCode : Int) (latency : Int)
    (err : Option String) : Memory :=
  { mem with client := mem.client.addStat name statusCode latency err }

/-- Lines 156-169 of `SummarizeMetrics`. -/
def recordStat (metrics : Metrics) (s : stat) (mem : Memory) : Metrics × Memory :=
  let metrics := { metrics with Requests := metrics.Requests + 1 }
  let metrics := { metrics with
    StatusCodes := mapSet metrics.StatusCodes s.statusCode
      ((mapGet metrics.StatusCodes s.statusCode).getD 0 + 1) }
  let (lat, mem) := metrics.Latencies.Add s.latency mem
  let metrics := { metrics with Latencies := lat }
  let (metrics, mem) :=
    if 200 ≤ s.statusCode ∧ s.statusCode < 300 then
      let (ls, mem) := metrics.LatenciesSuccess.Add s.latency mem
      ({ metrics with LatenciesSuccess := ls, SuccessCount := metrics.SuccessCount + 1 },
        mem)
    else (metrics, mem)
  let metrics :=
    if s.err ≠ "" then
      if (mapGet metrics.errors s.err).isNone then
        { metrics with errors := mapSet metrics.errors s.err (),
                       Errors := metrics.Errors ++ [s.err] }
      else metrics
    else metrics
  (metrics, mem)

/-- The body of the first loop of `SummarizeMetrics` (lines 151-171). -/
def summarizeStep (st : List (String × Metrics) × Memory) (s : stat) :
    List (String × Metrics) × Memory :=
  let (mapMetrics, mem) := st
  match mapGet mapMetrics s.name with
  | some metrics =>
    let (metrics, mem) := recordStat metrics s mem
    (mapSet mapMetrics s.name metrics, mem)
  | none =>
    let (metrics, mem) := newMetrics mem
    let mapMetrics := mapSet mapMetrics s.name metrics
    let (metrics, mem) := recordStat metrics s mem
    (mapSet mapMetrics s.name metrics, mem)

/-- The body of the second loop of `SummarizeMetrics` (lines 175-186). -/
def finalizeMetrics (rt : Runtime) (mem : Memory) (metrics : Metrics) : Metrics :=
  let metrics := { metrics with
    Success := F64.divInts (metrics.SuccessCount : Int) (metrics.Requests : Int) }
  let lat := metrics.Latencies
  let lat := { lat with
    Mean := (F64.divInts lat.Total (metrics.Requests : Int)).toDuration rt }
  let lat := { lat with P50 := lat.Quantile rt (F64.ofRat (50 / 100)) mem }
  let lat := { lat with P90 := lat.Quantile rt (F64.ofRat (90 / 100)) mem }
  let lat := { lat with P95 := lat.Quantile rt (F64.ofRat (95 / 100)) mem }
  let lat := { lat with P99 := lat.Quantile rt (F64.ofRat (99 / 100)) mem }
  let metrics := { metrics with Latencies := lat }
  let ls := metrics.LatenciesSuccess
  let ls := { ls with
    Mean := (F64.divInts ls.Total (metrics.SuccessCount : Int)).toDuration rt }
  let ls := { ls with P50 := ls.Quantile rt (F64.ofRat (50 / 100)) mem }
  let ls := { ls with P90 := ls.Quantile rt (F64.ofRat (90 / 100)) mem }
  let ls := { ls with P95 := ls.Quantile rt (F64.ofRat (95 / 100)) mem }
  let ls := { ls with P99 := ls.Quantile rt (F64.ofRat (99 / 100)) mem }
  { metrics with LatenciesSuccess := ls }

/-- The method `HttpClient.SummarizeMetrics`: the returned map and the memory after the
call. The first loop ranges over the `stats` of the client in memory. -/
def SummarizeMetrics (rt : Runtime) (mem : Memory) : List (String × Metrics) × Memory :=
  let (mapMetrics, mem) := mem.client.stats.foldl summarizeStep ([], mem)
  (mapMetrics.foldl
      (fun acc kv => mapSet acc kv.1 (finalizeMetrics rt mem kv.2)) mapMetrics,
    mem)

/-- A `LatencyMetrics` in memory read as a value: the pointer is replaced by the samples
of the t-digest behind it. -/
def LatencyMetrics.read (mem : Memory) (l : LatencyMetrics) : loadtester.LatencyMetrics :=
  { Total := l.Total, Mean := l.Mean, P50 := l.P50, P90 := l.P90, P95 := l.P95,
    P99 := l.P99, Max := l.Max, Min := l.Min, estimator := mem.digests[l.estimator]?.getD [] }

/-- A `Metrics` in memory read as a value. -/
def Metrics.read (mem : Memory) (m : Metrics) : loadtester.Metrics :=
  { Latencies := m.Latencies.read mem, LatenciesSuccess := m.LatenciesSuccess.read mem,
    Requests := m.Requests, Success := m.Success, StatusCodes := m.StatusCodes,
    Errors := m.Errors, errors := m.errors, SuccessCount := m.SuccessCount }

/-- A map of metrics in memory read as a map of values. -/
def readAll (mem : Memory) (mapMetrics : List (String × Metrics)) :
    List (String × loadtester.Metrics) :=
  mapMetrics.map (fun kv => (kv.1, kv.2.read mem))

/-- The estimator pointers held by the metrics of a map. -/
def pointers (mapMetrics : List (String × Metrics)) : List Nat :=
  mapMetrics.flatMap (fun kv => [kv.2.Latencies.estimator, kv.2.LatenciesSuccess.estimator])

/-- The map built over the memory `st.2`, started from the memory `mem0`, agrees with the
map `mp` built on values: it reads as `mp`, no two of its estimators share a t-digest,
its t-digests were allocated after `mem0`, and the client and the t-digests of `mem0`
are as they were. -/
def Agrees (mem0 : Memory) (st : List (String × Metrics) × Memory)
    (mp : List (String × loadtester.Metrics)) : Prop :=
  readAll st.2 st.1 = mp ∧
    (pointers st.1).Nodup ∧
    (∀ p ∈ pointers st.1, mem0.digests.length ≤ p ∧ p < st.2.digests.length) ∧
    st.2.client = mem0.client ∧
    mem0.digests.length ≤ st.2.digests.length ∧
    (∀ p, p < mem0.digests.length → st.2.digests[p]? = mem0.digests[p]?)

end Heap

/-! ## loadtester.go: the metrics accessor -/

/-- The struct `LoadTester`. -/
structure LoadTester where
  httpClient : HttpClient
deriving DecidableEq

/-- The method `LoadTester.SummarizeMetrics`: the returned map, and the load tester
after the call. -/
def LoadTester.SummarizeMetrics (rt : Runtime) (l : LoadTester) :
    List (String × Metrics) × LoadTester :=
  ((l.httpClient.SummarizeMetrics rt).1, { l with httpClient := (l.httpClient.SummarizeMetrics rt).2 })

/-! ## loadtester.go: Start

`Start` runs two goroutines: the caller's, which waits for `ctx.Done()` or for the timer
of `duration` and then calls `cancel()`, and the dispatch loop, which at every pass
checks `ctxWithCancel.Done()`, launches `rate.Freq` goroutines that run `fn`, and sleeps
for `rate.Per`. The embedding is a transition system over `StartState`; a schedule is
the sequence of events of one execution, so every interleaving of the two goroutines
and every passing of time is a schedule. The goroutines that run `fn` are counted when
they are launched and not followed further. -/

/-- The struct `Rate`; `Per` is a `time.Duration` in nanoseconds. -/
structure Rate where
  Freq : Int
  Per : Int
deriving DecidableEq

/-- Where the dispatch loop of `Start` (lines 66-82) stands. -/
inductive Dispatch where
  /-- Before the `select` of line 68. -/
  | atSelect
  /-- In the `for` loop of line 72, before the test `i < rate.Freq`. -/
  | launching (i : Int)
  /-- In `time.Sleep(rate.Per)`, which returns once the clock has reached `due`. -/
  | sleeping (due : Int)
  /-- After the `return` of line 70. -/
  | returned
deriving DecidableEq

/-- The state of one call of `Start`. -/
structure StartState where
  /-- Nanoseconds since `Start` was called. -/
  now : Int
  /-- The context `ctx` passed by the caller is done. -/
  ctxDone : Bool
  /-- `Start` has called `cancel()` (line 89): the drain has begun. -/
  cancelled : Bool
  dispatch : Dispatch
  /-- Passes of the loop that took the `default` branch. -/
  ticks : Nat
  /-- Executions of the `go` statement of line 74. -/
  launched : Nat
  /-- Executions of the `go` statement of line 74 after `cancel()` was called. -/
  launchedAfterCancel : Nat
deriving DecidableEq

/-- The events of an execution of `Start`. -/
inductive Event where
  /-- The clock advances by `dt` nanoseconds. -/
  | advance (dt : Nat)
  /-- The caller cancels `ctx`. -/
  | ctxCancel
  /-- The `select` of line 84 returns and `Start` calls `cancel()`. -/
  | stop
  /-- The dispatch loop takes its next step. -/
  | dispatch
deriving DecidableEq

/-- The state in which `Start` is entered. -/
def StartState.init : StartState :=
  { now := 0, ctxDone := false, cancelled := false, dispatch := .atSelect, ticks := 0,
    launched := 0, launchedAfterCancel := 0 }

/-- One event of an execution of `Start`; `none` when the event cannot happen in the
state. -/
def stepStart (rate : Rate) (duration : Int) (s : StartState) : Event → Option StartState
  | .advance dt => some { s with now := s.now + dt }
  | .ctxCancel => some { s with ctxDone := true }
  | .stop =>
    if s.cancelled = false ∧ (s.ctxDone = true ∨ duration ≤ s.now) then
      some { s with cancelled := true }
    else none
  | .dispatch =>
    match s.dispatch with
    | .atSelect =>
      if s.ctxDone = true ∨ s.cancelled = true then some { s with dispatch := .returned }
      else some { s with dispatch := .launching 0, ticks := s.ticks + 1 }
    | .launching i =>
      if i < rate.Freq then
        some { s with
          launched := s.launched + 1,
          launchedAfterCancel := s.launchedAfterCancel + (if s.cancelled then 1 else 0),
          dispatch := .launching (i + 1) }
      else some { s with dispatch := .sleeping (s.now + rate.Per) }
    | .sleeping due => if due ≤ s.now then some { s with dispatch := .atSelect } else none
    | .returned => none

/-- The events of a schedule, one after the other, from the state `s`. -/
def runStart (rate : Rate) (duration : Int) : StartState → List Event → Option StartState
  | s, [] => some s
  | s, e :: rest =>
    match stepStart rate duration s e with
    | some s' => runStart rate duration s' rest
    | none => none

/-- The method `LoadTester.Start` under a schedule: the state that the schedule leads
to, `none` when the schedule is not an execution. -/
def Start (rate : Rate) (duration : Int) (schedule : List Event) : Option StartState :=
  runStart rate duration StartState.init schedule

/-- Every finished tick has launched `rate.Freq` invocations, and a tick under way has
launched as many as its loop variable says. -/
def TickCount (rate : Rate) (s : StartState) : Prop :=
  match s.dispatch with
  | .launching i =>
    0 ≤ i ∧ i ≤ rate.Freq ∧ 1 ≤ s.ticks ∧
      (s.launched : Int) = rate.Freq * ((s.ticks : Int) - 1) + i
  | _ => (s.launched : Int) = rate.Freq * (s.ticks : Int)

/-- Launches after `cancel()` are those of the tick that was under way. -/
def LateLaunches (rate : Rate) (s : StartState) : Prop :=
  (s.cancelled = false → s.launchedAfterCancel = 0) ∧
    match s.dispatch with
    | .launching i => (s.launchedAfterCancel : Int) ≤ i
    | _ => (s.launchedAfterCancel : Int) ≤ rate.Freq

/-- Ticks are at least `rate.Per` apart. -/
def Pace (rate : Rate) (s : StartState) : Prop :=
  0 ≤ s.now ∧ ((s.ticks : Int) - 1) * rate.Per ≤ s.now ∧
    match s.dispatch with
    | .atSelect => (s.ticks : Int) * rate.Per ≤ s.now
    | .sleeping due => (s.ticks : Int) * rate.Per ≤ due
    | _ => True

/-- Nothing has been launched, and the loop variable of a tick under way is not
negative. -/
def NoLaunch (s : StartState) : Prop :=
  s.launched = 0 ∧
    match s.dispatch with
    | .launching i => 0 ≤ i
    | _ => True

/-! ## Vocabulary of the statements -/

/-- The stats of the log that carry the label `L`, in log order. -/
def labelStats (L : String) (stats : List stat) : List stat :=
  stats.filter (fun s => s.name = L)

/-- The success band of `SummarizeMetrics` and `SendRequest`: `200 <= c && c < 300`. -/
def isSuccess (s : stat) : Bool := decide (200 ≤ s.statusCode ∧ s.statusCode < 300)

/-- What lines 164-169 of `SummarizeMetrics` do to the `Errors` slice, seen on its own:
a non-empty error text that is not yet listed is appended. -/
def errorsStep (acc : List String) (e : String) : List String :=
  if e ≠ "" ∧ e ∉ acc then acc ++ [e] else acc

/-- The set `errors` and the slice `Errors` hold the same texts. -/
def ErrorsAgree (m : Metrics) : Prop :=
  ∀ e : String, mapGet m.errors e = none ↔ e ∉ m.Errors

/-! ## Sample data for evaluating the definitions -/

/-- A runtime for examples: an unrepresentable `float64` converts to the minimum
`int64` (the behaviour of amd64), and the estimator stand-in answers every query with
the sample added last (NaN before any sample). -/
def sampleRuntime : Runtime :=
  { estimatorGet := fun samples _ => samples.getLast?.getD .nan,
    indefinite := -(2 ^ 63) }

/-- A stats log with two labels. -/
def sampleLog : List stat :=
  [ { name := "a", statusCode := 200, latency := 5, err := "" },
    { name := "b", statusCode := 500, latency := 7, err := "x" },
    { name := "a", statusCode := 0, latency := 0, err := "y" },
    { name := "a", statusCode := 299, latency := 3, err := "" },
    { name := "a", statusCode := 300, latency := 4, err := "y" } ]

/-- The entry of the label "a" in the summary of `sampleLog` under `sampleRuntime`. -/
def sampleMetricsA : Metrics :=
  { Latencies :=
      { Total := 12, Mean := 3, P50 := 4, P90 := 4, P95 := 4, P99 := 4, Max := 5, Min := 3,
        estimator := [.fin 5, .fin 0, .fin 3, .fin 4] },
    LatenciesSuccess :=
      { Total := 8, Mean := 4, P50 := 3, P90 := 3, P95 := 3, P99 := 3, Max := 5, Min := 3,
        estimator := [.fin 5, .fin 3] },
    Requests := 4, Success := .fin (1 / 2),
    StatusCodes := [(200, 1), (0, 1), (299, 1), (300, 1)],
    Errors := ["y"], errors := [("y", ())], SuccessCount := 2 }

/-- A failed request, as `SendRequest` records it for a response with status 500. -/
def sampleFailure : stat :=
  { name := "a", statusCode := 500, latency := 7, err := "unexpected status code 500" }

/-- Four successful requests under one label with the latencies 0, 0, 0 and 5. -/
def zeroHeavyLog : List stat :=
  [ { name := "a", statusCode := 200, latency := 0, err := "" },
    { name := "a", statusCode := 200, latency := 0, err := "" },
    { name := "a", statusCode := 200, latency := 0, err := "" },
    { name := "a", statusCode := 200, latency := 5, err := "" } ]

/-- A memory for examples: the client holds `sampleLog`, and one t-digest with one sample
exists already. -/
def sampleMemory : Memory :=
  { client := { stats := sampleLog }, digests := [[.fin 9]] }

/-! ## Facts about Go maps -/

section MapFacts
variable {κ ν : Type} [DecidableEq κ]

theorem mapGet_mapSet (m : List (κ × ν)) (k k' : κ) (v : ν) :
    mapGet (mapSet m k v) k' = if k = k' then some v else mapGet m k' := by
  induction m with
  | nil => simp [mapSet, mapGet]
  | cons e rest ih =>
    obtain ⟨a, b⟩ := e
    by_cases hak : a = k
    · subst hak
      by_cases hk : a = k' <;> simp [mapSet, mapGet, hk]
    · by_cases hk : k = k'
      · subst hk
        simp [mapSet, mapGet, hak, ih]
      · simp [mapSet, mapGet, hak, ih, hk]

theorem mapGet_eq_none_iff (m : List (κ × ν)) (k : κ) :
    mapGet m k = none ↔ k ∉ m.map Prod.fst := by
  induction m with
  | nil => simp [mapGet]
  | cons e rest ih =>
    obtain ⟨a, b⟩ := e
    by_cases hak : a = k
    · simp [mapGet, hak]
    · simp [mapGet, hak, ih, Ne.symm hak]

theorem keys_mapSet (m : List (κ × ν)) (k : κ) (v : ν) :
    (mapSet m k v).map Prod.fst =
      if k ∈ m.map Prod.fst then m.map Prod.fst else m.map Prod.fst ++ [k] := by
  induction m with
  | nil => simp [mapSet]
  | cons e rest ih =>
    obtain ⟨a, b⟩ := e
    by_cases hak : a = k
    · simp [mapSet, hak]
    · have hka : ¬ k = a := fun h => hak h.symm
      by_cases hmem : k ∈ rest.map Prod.fst
      · simp only [mapSet, hak, if_false, List.map_cons, ih, if_pos hmem, List.mem_cons,
          hmem, or_true, if_true]
      · simp only [mapSet, hak, if_false, List.map_cons, ih, if_neg hmem, List.mem_cons,
          hmem, or_false, hka, List.cons_append]

theorem keys_nodup_mapSet (m : List (κ × ν)) (k : κ) (v : ν)
    (hm : (m.map Prod.fst).Nodup) : ((mapSet m k v).map Prod.fst).Nodup := by
  rw [keys_mapSet]
  split_ifs with hmem
  · exact hm
  · exact List.Nodup.append hm (List.nodup_singleton k) (by simpa using hmem)

/-- Overwriting every entry of a map with the image of its value reads back as the
image of the old reading. -/
theorem mapGet_foldl_mapSet (f : ν → ν) (es acc : List (κ × ν)) (k : κ)
    (hes : (es.map Prod.fst).Nodup) :
    mapGet (es.foldl (fun acc kv => mapSet acc kv.1 (f kv.2)) acc) k =
      match mapGet es k with
      | some v => some (f v)
      | none => mapGet acc k := by
  induction es generalizing acc with
  | nil => simp [mapGet]
  | cons e rest ih =>
    obtain ⟨a, b⟩ := e
    simp only [List.map_cons, List.nodup_cons] at hes
    rw [List.foldl_cons, ih _ hes.2]
    by_cases hak : a = k
    · subst hak
      have hnone : mapGet rest a = none := (mapGet_eq_none_iff rest a).2 hes.1
      simp [hnone, mapGet, mapGet_mapSet]
    · have hka : ¬ k = a := fun h => hak h.symm
      cases hr : mapGet rest k <;> simp [mapGet, hak, hka, mapGet_mapSet, hr]

end MapFacts

/-! ## Rounding to float64 -/

theorem roundHalfEven_intCast (z : Int) : roundHalfEven (z : ℚ) = z := by
  simp [roundHalfEven]

theorem roundHalfEven_le (y : ℚ) : (roundHalfEven y : ℚ) ≤ y + 1 / 2 := by
  unfold roundHalfEven
  have h1 := Int.floor_le y
  split_ifs with ha hb hc
  · linarith
  · push_cast; linarith
  · linarith
  · have ht : y - (⌊y⌋ : ℚ) = 1 / 2 := le_antisymm (not_lt.1 hb) (not_lt.1 ha)
    push_cast; linarith

theorem le_roundHalfEven (y : ℚ) : y - 1 / 2 ≤ (roundHalfEven y : ℚ) := by
  unfold roundHalfEven
  have h2 := Int.lt_floor_add_one y
  split_ifs with ha hb hc
  · linarith
  · push_cast; linarith
  · have ht : y - (⌊y⌋ : ℚ) = 1 / 2 := le_antisymm (not_lt.1 hb) (not_lt.1 ha)
    linarith
  · push_cast; linarith

theorem floor_le_roundHalfEven (y : ℚ) : ⌊y⌋ ≤ roundHalfEven y := by
  unfold roundHalfEven
  split_ifs <;> omega

/-- The result of `F64.ofRat` when the rounded value is in the finite range. -/
theorem ofRat_eq_fin (x r : ℚ)
    (hr : r = (roundHalfEven (x / (2 : ℚ) ^ (max (Int.log 2 |x|) (-1022) - 52)) : ℚ) *
      (2 : ℚ) ^ (max (Int.log 2 |x|) (-1022) - 52))
    (h1 : r < (2 : ℚ) ^ (1024 : ℕ)) (h2 : -((2 : ℚ) ^ (1024 : ℕ)) < r) :
    F64.ofRat x = .fin r := by
  unfold F64.ofRat
  simp only []
  rw [← hr, if_neg (not_le.2 h1), if_neg (not_le.2 h2)]

theorem ofRat_zero : F64.ofRat 0 = .fin 0 := by
  apply ofRat_eq_fin
  · simp [roundHalfEven]
  · positivity
  · have : (0 : ℚ) < (2 : ℚ) ^ (1024 : ℕ) := by positivity
    linarith

theorem two_zpow_pos (z : Int) : (0 : ℚ) < (2 : ℚ) ^ z := zpow_pos (by norm_num) z

theorem two_zpow_le_pow_1024 (z : Int) (hz : z ≤ 1024) :
    (2 : ℚ) ^ z ≤ (2 : ℚ) ^ (1024 : ℕ) := by
  have h1 : (2 : ℚ) ^ z ≤ (2 : ℚ) ^ ((1024 : ℕ) : ℤ) :=
    zpow_le_zpow_right₀ (by norm_num) (by exact_mod_cast hz)
  rwa [zpow_natCast] at h1

/-- A rational with at most 53 significant bits and an exponent in range is a
`float64`: rounding leaves it as it is. -/
theorem ofRat_exact (m j : Int) (hm : |m| < 2 ^ 53) (hj1 : -1074 ≤ j) (hj2 : j ≤ 970) :
    F64.ofRat ((m : ℚ) * (2 : ℚ) ^ j) = .fin ((m : ℚ) * (2 : ℚ) ^ j) := by
  by_cases hm0 : m = 0
  · subst hm0
    simpa using ofRat_zero
  have habs : |(m : ℚ) * (2 : ℚ) ^ j| = ((|m| : Int) : ℚ) * (2 : ℚ) ^ j := by
    rw [abs_mul, abs_of_pos (two_zpow_pos j)]
    push_cast
    rfl
  have hxpos : 0 < |(m : ℚ) * (2 : ℚ) ^ j| := by
    rw [habs]
    have : (0 : ℚ) < ((|m| : Int) : ℚ) := by exact_mod_cast abs_pos.2 hm0
    exact mul_pos this (two_zpow_pos j)
  have hm' : ((|m| : Int) : ℚ) < (2 : ℚ) ^ (53 : ℤ) := by
    have h53 : (2 : ℚ) ^ (53 : ℤ) = ((2 ^ 53 : Int) : ℚ) := by norm_num
    rw [h53]
    exact_mod_cast hm
  have hxlt : |(m : ℚ) * (2 : ℚ) ^ j| < (2 : ℚ) ^ (53 + j) := by
    rw [habs, zpow_add₀ (by norm_num : (2 : ℚ) ≠ 0)]
    exact mul_lt_mul_of_pos_right hm' (two_zpow_pos j)
  have hlog : Int.log 2 |(m : ℚ) * (2 : ℚ) ^ j| < 53 + j := by
    apply (Int.lt_zpow_iff_log_lt (by norm_num) hxpos).1
    simpa using hxlt
  have he : max (Int.log 2 |(m : ℚ) * (2 : ℚ) ^ j|) (-1022) - 52 ≤ j := by
    rcases max_cases (Int.log 2 |(m : ℚ) * (2 : ℚ) ^ j|) (-1022) with ⟨h, -⟩ | ⟨h, -⟩ <;>
      rw [h] <;> omega
  obtain ⟨d, hd⟩ : ∃ d : ℕ,
      j = (max (Int.log 2 |(m : ℚ) * (2 : ℚ) ^ j|) (-1022) - 52) + d :=
    ⟨(j - (max (Int.log 2 |(m : ℚ) * (2 : ℚ) ^ j|) (-1022) - 52)).toNat, by omega⟩
  have hxlt' : |(m : ℚ) * (2 : ℚ) ^ j| < (2 : ℚ) ^ (1024 : ℕ) :=
    lt_of_lt_of_le hxlt (two_zpow_le_pow_1024 _ (by omega))
  apply ofRat_eq_fin
  · generalize max (Int.log 2 |(m : ℚ) * (2 : ℚ) ^ j|) (-1022) - 52 = k at hd ⊢
    have hquot : (m : ℚ) * (2 : ℚ) ^ j / (2 : ℚ) ^ k = ((m * 2 ^ d : Int) : ℚ) := by
      rw [hd, zpow_add₀ (by norm_num : (2 : ℚ) ≠ 0), zpow_natCast]
      have hk := (two_zpow_pos k).ne'
      push_cast
      field_simp
      ring
    rw [hquot, roundHalfEven_intCast, hd, zpow_add₀ (by norm_num : (2 : ℚ) ≠ 0),
      zpow_natCast]
    push_cast
    ring
  · exact lt_of_le_of_lt (le_abs_self _) hxlt'
  · have := neg_abs_le ((m : ℚ) * (2 : ℚ) ^ j)
    linarith

/-- An integer of magnitude at most `2^53` converts to `float64` without rounding. -/
theorem ofInt_exact (i : Int) (hi : |i| ≤ 2 ^ 53) : F64.ofInt i = .fin (i : ℚ) := by
  unfold F64.ofInt
  rcases lt_or_eq_of_le hi with hlt | heq
  · have h := ofRat_exact i 0 hlt (by norm_num) (by norm_num)
    simpa using h
  · rcases abs_eq (by norm_num : (0 : Int) ≤ 2 ^ 53) |>.1 heq with h | h
    · have h1 := ofRat_exact 1 53 (by norm_num) (by norm_num) (by norm_num)
      have hx : ((i : Int) : ℚ) = ((1 : Int) : ℚ) * (2 : ℚ) ^ (53 : ℤ) := by
        rw [h]; norm_num
      rw [hx]
      exact h1
    · have h1 := ofRat_exact (-1) 53 (by norm_num) (by norm_num) (by norm_num)
      have hx : ((i : Int) : ℚ) = ((-1 : Int) : ℚ) * (2 : ℚ) ^ (53 : ℤ) := by
        rw [h]; norm_num
      rw [hx]
      exact h1

theorem div_fin_fin (a b : ℚ) (hb : b ≠ 0) :
    F64.div (.fin a) (.fin b) = F64.ofRat (a / b) := by
  simp [F64.div, hb]

/-- The quotient of two counts that `float64` holds exactly is the `float64` nearest to
their ratio. -/
theorem divInts_counts (a b : ℕ) (hb : 0 < b) (hab : a ≤ b) (hb53 : b ≤ 2 ^ 53) :
    F64.divInts (a : Int) (b : Int) = F64.ofRat ((a : ℚ) / (b : ℚ)) := by
  unfold F64.divInts
  have hb' : |(b : Int)| ≤ 2 ^ 53 := by
    rw [abs_of_nonneg (by positivity)]
    exact_mod_cast hb53
  have ha' : |(a : Int)| ≤ 2 ^ 53 := by
    rw [abs_of_nonneg (by positivity)]
    exact_mod_cast le_trans hab hb53
  rw [ofInt_exact _ ha', ofInt_exact _ hb', div_fin_fin]
  · push_cast
    rfl
  · have : (0 : ℚ) < (b : ℚ) := by exact_mod_cast hb
    exact_mod_cast this.ne'

theorem divInts_zero_zero : F64.divInts 0 0 = .nan := by
  unfold F64.divInts
  rw [ofInt_exact 0 (by norm_num)]
  simp [F64.div]

theorem round_ratio_bounds (x u : ℚ) (hu : 0 < u) (hule : u ≤ 1 / 2 ^ 53)
    (h1 : 1 / 2 ^ 53 ≤ x) (h2 : x ≤ 1 - 1 / 2 ^ 53) :
    0 < (roundHalfEven (x / u) : ℚ) * u ∧ (roundHalfEven (x / u) : ℚ) * u < 1 ∧
      |(roundHalfEven (x / u) : ℚ) * u - x| ≤ 1 / 2 ^ 54 := by
  have hy1 : (1 : ℚ) ≤ x / u := by
    rw [le_div_iff₀ hu]
    linarith
  have hfloor : (1 : Int) ≤ ⌊x / u⌋ := Int.le_floor.2 (by exact_mod_cast hy1)
  have hz1 : (1 : ℚ) ≤ (roundHalfEven (x / u) : ℚ) := by
    exact_mod_cast le_trans hfloor (floor_le_roundHalfEven (x / u))
  have hup := roundHalfEven_le (x / u)
  have hlo := le_roundHalfEven (x / u)
  have hxu : x / u * u = x := div_mul_cancel₀ x hu.ne'
  have hupu : (roundHalfEven (x / u) : ℚ) * u ≤ x + u / 2 := by
    have := mul_le_mul_of_nonneg_right hup hu.le
    rw [add_mul, hxu] at this
    linarith
  have hlou : x - u / 2 ≤ (roundHalfEven (x / u) : ℚ) * u := by
    have := mul_le_mul_of_nonneg_right hlo hu.le
    rw [sub_mul, hxu] at this
    linarith
  have h54 : (1 : ℚ) / 2 ^ 54 = 1 / 2 ^ 53 / 2 := by norm_num
  refine ⟨by nlinarith, ?_, ?_⟩
  · have : (0 : ℚ) < 1 / 2 ^ 53 := by positivity
    linarith
  · rw [abs_le, h54]
    constructor <;> linarith

/-- Rounding a ratio that lies strictly between 0 and 1 and at least `2^-53` away from
both: the result is finite, strictly between 0 and 1, and within `2^-54` of the
ratio. -/
theorem ofRat_ratio (x : ℚ) (h1 : 1 / 2 ^ 53 ≤ x) (h2 : x ≤ 1 - 1 / 2 ^ 53) :
    ∃ q : ℚ, F64.ofRat x = .fin q ∧ 0 < q ∧ q < 1 ∧ |q - x| ≤ 1 / 2 ^ 54 := by
  have hxpos : 0 < x := lt_of_lt_of_le (by positivity) h1
  have hx1 : x < 1 := by
    have : (0 : ℚ) < 1 / 2 ^ 53 := by positivity
    linarith
  have habs : |x| = x := abs_of_pos hxpos
  have hlog : Int.log 2 x < 0 := by
    apply (Int.lt_zpow_iff_log_lt (by norm_num) hxpos).1
    simpa using hx1
  have he : max (Int.log 2 x) (-1022) - 52 ≤ -53 := by
    rcases max_cases (Int.log 2 x) (-1022) with ⟨h, -⟩ | ⟨h, -⟩ <;> rw [h] <;> omega
  have hupos : (0 : ℚ) < (2 : ℚ) ^ (max (Int.log 2 x) (-1022) - 52) := two_zpow_pos _
  have hule : (2 : ℚ) ^ (max (Int.log 2 x) (-1022) - 52) ≤ 1 / 2 ^ 53 := by
    have h := zpow_le_zpow_right₀ (by norm_num : (1 : ℚ) ≤ 2) he
    have h53 : (2 : ℚ) ^ (-53 : ℤ) = 1 / 2 ^ 53 := by
      rw [zpow_neg, one_div]
      norm_cast
    rwa [h53] at h
  obtain ⟨hq0, hq1, hqx⟩ := round_ratio_bounds x _ hupos hule h1 h2
  have hbig : (1 : ℚ) ≤ (2 : ℚ) ^ (1024 : ℕ) := one_le_pow₀ (by norm_num)
  refine ⟨_, ofRat_eq_fin x _ (by rw [habs]) ?_ ?_, hq0, hq1, hqx⟩
  · linarith
  · linarith

/-! ## The first loop, label by label -/

theorem mapGet_summarizeStep (mp : List (String × Metrics)) (s : stat) (L : String) :
    mapGet (summarizeStep mp s) L =
      if s.name = L then some (recordStat ((mapGet mp s.name).getD newMetrics) s)
      else mapGet mp L := by
  unfold summarizeStep
  cases hg : mapGet mp s.name with
  | none => simp only [mapGet_mapSet, Option.getD_none]; split_ifs <;> rfl
  | some m => simp only [mapGet_mapSet, Option.getD_some]

theorem keys_nodup_summarizeStep (mp : List (String × Metrics)) (s : stat)
    (hmp : (mp.map Prod.fst).Nodup) : ((summarizeStep mp s).map Prod.fst).Nodup := by
  unfold summarizeStep
  cases mapGet mp s.name with
  | none => exact keys_nodup_mapSet _ _ _ (keys_nodup_mapSet _ _ _ hmp)
  | some m => exact keys_nodup_mapSet _ _ _ hmp

theorem keys_nodup_foldl_summarizeStep (stats : List stat) (mp : List (String × Metrics))
    (hmp : (mp.map Prod.fst).Nodup) :
    ((stats.foldl summarizeStep mp).map Prod.fst).Nodup := by
  induction stats generalizing mp with
  | nil => exact hmp
  | cons s rest ih => exact ih _ (keys_nodup_summarizeStep mp s hmp)

theorem keys_nodup_accumulate (stats : List stat) :
    ((accumulate stats).map Prod.fst).Nodup :=
  keys_nodup_foldl_summarizeStep stats [] (by simp)

theorem labelStats_cons (L : String) (s : stat) (rest : List stat) :
    labelStats L (s :: rest) =
      if s.name = L then s :: labelStats L rest else labelStats L rest := by
  by_cases hs : s.name = L <;> simp [labelStats, hs]

theorem mapGet_foldl_summarizeStep (stats : List stat) (mp : List (String × Metrics))
    (L : String) :
    mapGet (stats.foldl summarizeStep mp) L =
      if labelStats L stats = [] then mapGet mp L
      else some ((labelStats L stats).foldl recordStat ((mapGet mp L).getD newMetrics)) := by
  induction stats generalizing mp with
  | nil => simp [labelStats]
  | cons s rest ih =>
    rw [List.foldl_cons, ih, mapGet_summarizeStep, labelStats_cons]
    by_cases hs : s.name = L
    · subst hs
      by_cases hr : labelStats s.name rest = []
      · simp [hr]
      · simp [hr]
    · by_cases hr : labelStats L rest = []
      · simp [hr, hs]
      · simp [hr, hs]

/-- The entry of a label in the result of `SummarizeMetrics`: absent when no stat
carries the label, else the finalized fold of `recordStat` over the stats of the label. -/
theorem mapGet_SummarizeMetrics (rt : Runtime) (h : HttpClient) (L : String) :
    mapGet (h.SummarizeMetrics rt).1 L =
      if labelStats L h.stats = [] then none
      else some (finalizeMetrics rt ((labelStats L h.stats).foldl recordStat newMetrics)) := by
  unfold HttpClient.SummarizeMetrics finalizeAll
  rw [mapGet_foldl_mapSet (finalizeMetrics rt) _ _ L (keys_nodup_accumulate h.stats)]
  unfold accumulate
  rw [mapGet_foldl_summarizeStep]
  split_ifs with hr <;> simp [mapGet]

/-! ## One step of the loop, field by field -/

theorem recordStat_Requests (m : Metrics) (s : stat) :
    (recordStat m s).Requests = m.Requests + 1 := by
  simp only [recordStat]
  split_ifs <;> rfl

theorem recordStat_StatusCodes (m : Metrics) (s : stat) :
    (recordStat m s).StatusCodes =
      mapSet m.StatusCodes s.statusCode ((mapGet m.StatusCodes s.statusCode).getD 0 + 1) := by
  simp only [recordStat]
  split_ifs <;> rfl

theorem recordStat_Latencies (m : Metrics) (s : stat) :
    (recordStat m s).Latencies = m.Latencies.Add s.latency := by
  simp only [recordStat]
  split_ifs <;> rfl

theorem recordStat_SuccessCount (m : Metrics) (s : stat) :
    (recordStat m s).SuccessCount = m.SuccessCount + (if isSuccess s then 1 else 0) := by
  by_cases hc : 200 ≤ s.statusCode ∧ s.statusCode < 300 <;>
    by_cases he : s.err = "" <;>
    by_cases hg : mapGet m.errors s.err = none <;>
    simp [recordStat, isSuccess, hc, he, hg]

theorem recordStat_LatenciesSuccess (m : Metrics) (s : stat) :
    (recordStat m s).LatenciesSuccess =
      if isSuccess s then m.LatenciesSuccess.Add s.latency else m.LatenciesSuccess := by
  by_cases hc : 200 ≤ s.statusCode ∧ s.statusCode < 300 <;>
    by_cases he : s.err = "" <;>
    by_cases hg : mapGet m.errors s.err = none <;>
    simp [recordStat, isSuccess, hc, he, hg]

theorem recordStat_Errors (m : Metrics) (s : stat) :
    (recordStat m s).Errors =
      if s.err ≠ "" ∧ mapGet m.errors s.err = none then m.Errors ++ [s.err]
      else m.Errors := by
  simp only [recordStat]
  split_ifs <;> simp_all

theorem recordStat_errors (m : Metrics) (s : stat) :
    (recordStat m s).errors =
      if s.err ≠ "" ∧ mapGet m.errors s.err = none then mapSet m.errors s.err ()
      else m.errors := by
  simp only [recordStat]
  split_ifs <;> simp_all

theorem finalizeMetrics_Requests (rt : Runtime) (m : Metrics) :
    (finalizeMetrics rt m).Requests = m.Requests := rfl

theorem finalizeMetrics_SuccessCount (rt : Runtime) (m : Metrics) :
    (finalizeMetrics rt m).SuccessCount = m.SuccessCount := rfl

theorem finalizeMetrics_StatusCodes (rt : Runtime) (m : Metrics) :
    (finalizeMetrics rt m).StatusCodes = m.StatusCodes := rfl

theorem finalizeMetrics_Errors (rt : Runtime) (m : Metrics) :
    (finalizeMetrics rt m).Errors = m.Errors := rfl

theorem finalizeMetrics_Success (rt : Runtime) (m : Metrics) :
    (finalizeMetrics rt m).Success = F64.divInts (m.SuccessCount : Int) (m.Requests : Int) :=
  rfl

theorem finalizeMetrics_Latencies_Total (rt : Runtime) (m : Metrics) :
    (finalizeMetrics rt m).Latencies.Total = m.Latencies.Total := rfl

theorem finalizeMetrics_LatenciesSuccess_Total (rt : Runtime) (m : Metrics) :
    (finalizeMetrics rt m).LatenciesSuccess.Total = m.LatenciesSuccess.Total := rfl

theorem finalizeMetrics_Latencies_Min (rt : Runtime) (m : Metrics) :
    (finalizeMetrics rt m).Latencies.Min = m.Latencies.Min := rfl

theorem finalizeMetrics_Latencies_Max (rt : Runtime) (m : Metrics) :
    (finalizeMetrics rt m).Latencies.Max = m.Latencies.Max := rfl

theorem finalizeMetrics_Latencies_P50 (rt : Runtime) (m : Metrics) :
    (finalizeMetrics rt m).Latencies.P50 =
      (rt.estimatorGet m.Latencies.estimator (F64.ofRat (50 / 100))).toDuration rt := rfl

theorem finalizeMetrics_Latencies_Mean (rt : Runtime) (m : Metrics) :
    (finalizeMetrics rt m).Latencies.Mean =
      (F64.divInts m.Latencies.Total (m.Requests : Int)).toDuration rt := rfl

theorem finalizeMetrics_LatenciesSuccess_Mean (rt : Runtime) (m : Metrics) :
    (finalizeMetrics rt m).LatenciesSuccess.Mean =
      (F64.divInts m.LatenciesSuccess.Total (m.SuccessCount : Int)).toDuration rt := rfl

/-! ## The fold of `recordStat` over the stats of one label -/

theorem foldl_recordStat_Requests (xs : List stat) (m : Metrics) :
    (xs.foldl recordStat m).Requests = m.Requests + xs.length := by
  induction xs generalizing m with
  | nil => simp
  | cons s rest ih => rw [List.foldl_cons, ih, recordStat_Requests, List.length_cons]; omega

theorem foldl_recordStat_SuccessCount (xs : List stat) (m : Metrics) :
    (xs.foldl recordStat m).SuccessCount = m.SuccessCount + xs.countP isSuccess := by
  induction xs generalizing m with
  | nil => simp
  | cons s rest ih =>
    rw [List.foldl_cons, ih, recordStat_SuccessCount, List.countP_cons]; omega

/-- The sum of the counters of a histogram. -/
theorem sum_values_mapSet_incr (m : List (Int × Int)) (k : Int) :
    ((mapSet m k ((mapGet m k).getD 0 + 1)).map Prod.snd).sum = (m.map Prod.snd).sum + 1 := by
  induction m with
  | nil => simp [mapSet, mapGet]
  | cons e rest ih =>
    obtain ⟨a, b⟩ := e
    by_cases hak : a = k
    · simp [mapSet, mapGet, hak]; ring
    · simp [mapSet, mapGet, hak, ih]; ring

theorem foldl_recordStat_StatusCodes_sum (xs : List stat) (m : Metrics) :
    (((xs.foldl recordStat m).StatusCodes).map Prod.snd).sum =
      (m.StatusCodes.map Prod.snd).sum + (xs.length : Int) := by
  induction xs generalizing m with
  | nil => simp
  | cons s rest ih =>
    rw [List.foldl_cons, ih, recordStat_StatusCodes, sum_values_mapSet_incr,
      List.length_cons]
    push_cast; ring

theorem foldl_recordStat_StatusCodes_nodup (xs : List stat) (m : Metrics)
    (hm : (m.StatusCodes.map Prod.fst).Nodup) :
    (((xs.foldl recordStat m).StatusCodes).map Prod.fst).Nodup := by
  induction xs generalizing m with
  | nil => exact hm
  | cons s rest ih =>
    rw [List.foldl_cons]
    apply ih
    rw [recordStat_StatusCodes]
    exact keys_nodup_mapSet _ _ _ hm

/-- Every counter of the histogram is the number of stats with that status code. -/
theorem foldl_recordStat_StatusCodes_get (xs : List stat) (m : Metrics) (c : Int) :
    (mapGet ((xs.foldl recordStat m).StatusCodes) c).getD 0 =
      (mapGet m.StatusCodes c).getD 0 + (xs.countP (fun s => s.statusCode = c) : Int) := by
  induction xs generalizing m with
  | nil => simp
  | cons s rest ih =>
    rw [List.foldl_cons, ih, recordStat_StatusCodes, mapGet_mapSet, List.countP_cons]
    by_cases hc : s.statusCode = c
    · subst hc; simp; ring
    · simp [hc]

/-! ## Latency summaries -/

theorem wrapInt64_of_inRange (x : Int) (h1 : -(2 ^ 63) ≤ x) (h2 : x < 2 ^ 63) :
    wrapInt64 x = x := by
  unfold wrapInt64
  omega

theorem wrapInt64_wrapInt64_add (a b : Int) :
    wrapInt64 (wrapInt64 a + b) = wrapInt64 (a + b) := by
  unfold wrapInt64
  omega

theorem Add_Total (l : LatencyMetrics) (x : Int) :
    (l.Add x).Total = wrapInt64 (l.Total + x) := by
  by_cases h1 : x > l.Max <;> by_cases h2 : x < l.Min ∨ l.Min = 0 <;>
    simp [LatencyMetrics.Add, h1, h2]

theorem Add_Max (l : LatencyMetrics) (x : Int) :
    (l.Add x).Max = if x > l.Max then x else l.Max := by
  by_cases h1 : x > l.Max <;> by_cases h2 : x < l.Min ∨ l.Min = 0 <;>
    simp [LatencyMetrics.Add, h1, h2]

theorem Add_Min (l : LatencyMetrics) (x : Int) :
    (l.Add x).Min = if x < l.Min ∨ l.Min = 0 then x else l.Min := by
  by_cases h1 : x > l.Max <;> by_cases h2 : x < l.Min ∨ l.Min = 0 <;>
    simp [LatencyMetrics.Add, h1, h2]

theorem Add_estimator (l : LatencyMetrics) (x : Int) :
    (l.Add x).estimator = l.estimator ++ [F64.ofInt x] := by
  by_cases h1 : x > l.Max <;> by_cases h2 : x < l.Min ∨ l.Min = 0 <;>
    simp [LatencyMetrics.Add, h1, h2]

theorem foldl_Add_Total (xs : List Int) (l : LatencyMetrics) :
    wrapInt64 (xs.foldl LatencyMetrics.Add l).Total = wrapInt64 (l.Total + xs.sum) := by
  induction xs generalizing l with
  | nil => simp
  | cons x rest ih =>
    rw [List.foldl_cons, ih, Add_Total, wrapInt64_wrapInt64_add, List.sum_cons, add_assoc]

theorem foldl_Add_Total_wrapped (xs : List Int) (l : LatencyMetrics)
    (hl : wrapInt64 l.Total = l.Total) :
    wrapInt64 (xs.foldl LatencyMetrics.Add l).Total = (xs.foldl LatencyMetrics.Add l).Total := by
  induction xs generalizing l with
  | nil => exact hl
  | cons x rest ih =>
    rw [List.foldl_cons]
    apply ih
    rw [Add_Total]
    unfold wrapInt64
    omega

theorem foldl_Add_new_Total (xs : List Int) :
    (xs.foldl LatencyMetrics.Add newLatencyMetrics).Total = wrapInt64 xs.sum := by
  rw [← foldl_Add_Total_wrapped xs newLatencyMetrics (by decide), foldl_Add_Total]
  simp [newLatencyMetrics]

theorem foldl_recordStat_Latencies (xs : List stat) (m : Metrics) :
    (xs.foldl recordStat m).Latencies =
      (xs.map stat.latency).foldl LatencyMetrics.Add m.Latencies := by
  induction xs generalizing m with
  | nil => rfl
  | cons s rest ih => rw [List.foldl_cons, ih, recordStat_Latencies]; rfl

theorem foldl_recordStat_LatenciesSuccess (xs : List stat) (m : Metrics) :
    (xs.foldl recordStat m).LatenciesSuccess =
      ((xs.filter isSuccess).map stat.latency).foldl LatencyMetrics.Add m.LatenciesSuccess := by
  induction xs generalizing m with
  | nil => rfl
  | cons s rest ih =>
    rw [List.foldl_cons, ih, recordStat_LatenciesSuccess]
    by_cases hs : isSuccess s = true <;> simp [hs]

theorem labelStats_eq_nil_iff (L : String) (stats : List stat) :
    labelStats L stats = [] ↔ L ∉ stats.map stat.name := by
  simp only [labelStats, List.filter_eq_nil_iff, List.mem_map, not_exists, not_and,
    decide_eq_true_eq]

theorem length_labelStats (L : String) (stats : List stat) :
    (labelStats L stats).length = stats.countP (fun s => s.name = L) := by
  simp [labelStats, List.countP_eq_length_filter]

/-- A label without stats has no entry in the result. -/
theorem mapGet_SummarizeMetrics_none (rt : Runtime) (h : HttpClient) (L : String)
    (hL : L ∉ h.stats.map stat.name) : mapGet (h.SummarizeMetrics rt).1 L = none := by
  rw [mapGet_SummarizeMetrics, if_pos ((labelStats_eq_nil_iff L h.stats).2 hL)]

/-- A label with stats has the finalized fold of its stats as entry. -/
theorem mapGet_SummarizeMetrics_some (rt : Runtime) (h : HttpClient) (L : String)
    (hL : L ∈ h.stats.map stat.name) :
    mapGet (h.SummarizeMetrics rt).1 L =
      some (finalizeMetrics rt ((labelStats L h.stats).foldl recordStat newMetrics)) := by
  rw [mapGet_SummarizeMetrics, if_neg]
  rw [labelStats_eq_nil_iff]
  exact not_not.2 hL

/-- An entry of the result determines its label as one of the log. -/
theorem mem_of_mapGet_SummarizeMetrics (rt : Runtime) (h : HttpClient) (L : String)
    (m : Metrics) (hm : mapGet (h.SummarizeMetrics rt).1 L = some m) :
    L ∈ h.stats.map stat.name ∧
      m = finalizeMetrics rt ((labelStats L h.stats).foldl recordStat newMetrics) := by
  by_cases hL : L ∈ h.stats.map stat.name
  · rw [mapGet_SummarizeMetrics_some rt h L hL] at hm
    exact ⟨hL, (Option.some.inj hm).symm⟩
  · rw [mapGet_SummarizeMetrics_none rt h L hL] at hm
    cases hm

/-- A quotient of two integers that `float64` holds exactly and whose ratio has at most
53 significant bits is that ratio. -/
theorem divInts_exact (a b m j : Int) (ha : |a| ≤ 2 ^ 53) (hb : |b| ≤ 2 ^ 53) (hb0 : b ≠ 0)
    (hm : |m| < 2 ^ 53) (hj1 : -1074 ≤ j) (hj2 : j ≤ 970)
    (hx : (a : ℚ) / (b : ℚ) = (m : ℚ) * (2 : ℚ) ^ j) :
    F64.divInts a b = .fin ((a : ℚ) / (b : ℚ)) := by
  unfold F64.divInts
  rw [ofInt_exact a ha, ofInt_exact b hb, div_fin_fin _ _ (by exact_mod_cast hb0), hx]
  exact ofRat_exact m j hm hj1 hj2

/-- The summary of `sampleLog` has `sampleMetricsA` as entry of the label "a". -/
theorem mapGet_sample_a :
    mapGet (HttpClient.SummarizeMetrics sampleRuntime ⟨sampleLog⟩).1 "a" =
      some sampleMetricsA := by
  have h0 : F64.ofInt 0 = .fin 0 := by simpa using ofInt_exact 0 (by norm_num)
  have h3 : F64.ofInt 3 = .fin 3 := by simpa using ofInt_exact 3 (by norm_num)
  have h4 : F64.ofInt 4 = .fin 4 := by simpa using ofInt_exact 4 (by norm_num)
  have h5 : F64.ofInt 5 = .fin 5 := by simpa using ofInt_exact 5 (by norm_num)
  have hs : F64.divInts 2 4 = .fin (1 / 2) := by
    have h := divInts_exact 2 4 1 (-1) (by norm_num) (by norm_num) (by norm_num)
      (by norm_num) (by norm_num) (by norm_num) (by norm_num)
    rw [h]
    norm_num
  have hm1 : F64.divInts 12 4 = .fin 3 := by
    have h := divInts_exact 12 4 3 0 (by norm_num) (by norm_num) (by norm_num)
      (by norm_num) (by norm_num) (by norm_num) (by norm_num)
    rw [h]
    norm_num
  have hm2 : F64.divInts 8 2 = .fin 4 := by
    have h := divInts_exact 8 2 4 0 (by norm_num) (by norm_num) (by norm_num)
      (by norm_num) (by norm_num) (by norm_num) (by norm_num)
    rw [h]
    norm_num
  simp [HttpClient.SummarizeMetrics, sampleLog, sampleRuntime, accumulate, finalizeAll,
    summarizeStep, mapGet, mapSet, finalizeMetrics, recordStat, newMetrics,
    newLatencyMetrics, LatencyMetrics.Add, LatencyMetrics.Quantile,
    F64.toDuration, wrapInt64, sampleMetricsA, h0, h3, h4, h5, hs, hm1, hm2]

/-! ## Counts, histogram and totals of a label -/

/-- C1: a label that occurs in the stats log has an entry in the result of
`SummarizeMetrics` whose `Requests` is the number of stats with that label and whose
`StatusCodes` histogram (one counter per status code) sums to the same number; a label
that does not occur has no entry. -/
theorem summarize_requests_eq_histogram_sum (rt : Runtime) (h : HttpClient) (L : String) :
    (L ∈ h.stats.map stat.name →
      ∃ m, mapGet (h.SummarizeMetrics rt).1 L = some m ∧
        m.Requests = h.stats.countP (fun s => s.name = L) ∧
        (m.StatusCodes.map Prod.snd).sum = (h.stats.countP (fun s => s.name = L) : Int) ∧
        (m.StatusCodes.map Prod.fst).Nodup) ∧
    (L ∉ h.stats.map stat.name → mapGet (h.SummarizeMetrics rt).1 L = none) := by
  refine ⟨fun hL => ?_, mapGet_SummarizeMetrics_none rt h L⟩
  refine ⟨_, mapGet_SummarizeMetrics_some rt h L hL, ?_, ?_, ?_⟩
  · rw [finalizeMetrics_Requests, foldl_recordStat_Requests, length_labelStats]
    simp [newMetrics]
  · rw [finalizeMetrics_StatusCodes, foldl_recordStat_StatusCodes_sum, length_labelStats]
    simp [newMetrics]
  · rw [finalizeMetrics_StatusCodes]
    exact foldl_recordStat_StatusCodes_nodup _ _ (by simp [newMetrics])

theorem summarize_requests_eq_histogram_sum_witness :
    ("a" ∈ sampleLog.map stat.name ∧
      ∃ m, mapGet (HttpClient.SummarizeMetrics sampleRuntime ⟨sampleLog⟩).1 "a" = some m ∧
        m.Requests = sampleLog.countP (fun s => s.name = "a") ∧
        (m.StatusCodes.map Prod.snd).sum = (sampleLog.countP (fun s => s.name = "a") : Int) ∧
        (m.StatusCodes.map Prod.fst).Nodup) ∧
    ("c" ∉ sampleLog.map stat.name ∧
      mapGet (HttpClient.SummarizeMetrics sampleRuntime ⟨sampleLog⟩).1 "c" = none) :=
  ⟨⟨by decide,
      (summarize_requests_eq_histogram_sum sampleRuntime ⟨sampleLog⟩ "a").1 (by decide)⟩,
    ⟨by decide,
      (summarize_requests_eq_histogram_sum sampleRuntime ⟨sampleLog⟩ "c").2 (by decide)⟩⟩

/-- C2: for an entry of the result of `SummarizeMetrics`, `SuccessCount` is the number of
stats of the label whose status code c has `200 <= c < 300`, `LatenciesSuccess.Total`
is the `time.Duration` sum of the latencies of exactly those stats, and
`Latencies.Total` is the `time.Duration` sum of the latencies of all stats of the
label; a sum inside the `int64` range is the mathematical sum. -/
theorem summarize_success_classification (rt : Runtime) (h : HttpClient) (L : String)
    (m : Metrics) (hm : mapGet (h.SummarizeMetrics rt).1 L = some m) :
    m.SuccessCount =
        h.stats.countP (fun s => s.name = L ∧ 200 ≤ s.statusCode ∧ s.statusCode < 300) ∧
      m.LatenciesSuccess.Total =
        wrapInt64 ((h.stats.filter
          (fun s => s.name = L ∧ 200 ≤ s.statusCode ∧ s.statusCode < 300)).map
            stat.latency).sum ∧
      m.Latencies.Total =
        wrapInt64 ((h.stats.filter (fun s => s.name = L)).map stat.latency).sum ∧
      (∀ x : Int, -(2 ^ 63) ≤ x → x < 2 ^ 63 → wrapInt64 x = x) := by
  obtain ⟨-, rfl⟩ := mem_of_mapGet_SummarizeMetrics rt h L m hm
  have hfilter : (labelStats L h.stats).filter isSuccess =
      h.stats.filter (fun s => s.name = L ∧ 200 ≤ s.statusCode ∧ s.statusCode < 300) := by
    simp only [labelStats, isSuccess, List.filter_filter]
    congr 1
    funext s
    by_cases h1 : s.name = L <;> simp [h1]
  refine ⟨?_, ?_, ?_, wrapInt64_of_inRange⟩
  · rw [finalizeMetrics_SuccessCount, foldl_recordStat_SuccessCount,
      List.countP_eq_length_filter, hfilter, List.countP_eq_length_filter]
    simp [newMetrics]
  · rw [finalizeMetrics_LatenciesSuccess_Total, foldl_recordStat_LatenciesSuccess, hfilter]
    exact foldl_Add_new_Total _
  · rw [finalizeMetrics_Latencies_Total, foldl_recordStat_Latencies]
    exact foldl_Add_new_Total _

theorem summarize_success_classification_witness :
    mapGet (HttpClient.SummarizeMetrics sampleRuntime ⟨sampleLog⟩).1 "a" =
        some sampleMetricsA ∧
      sampleMetricsA.SuccessCount =
        sampleLog.countP
          (fun s => s.name = "a" ∧ 200 ≤ s.statusCode ∧ s.statusCode < 300) ∧
      sampleMetricsA.LatenciesSuccess.Total =
        wrapInt64 ((sampleLog.filter
          (fun s => s.name = "a" ∧ 200 ≤ s.statusCode ∧ s.statusCode < 300)).map
            stat.latency).sum ∧
      sampleMetricsA.Latencies.Total =
        wrapInt64 ((sampleLog.filter (fun s => s.name = "a")).map stat.latency).sum ∧
      (∀ x : Int, -(2 ^ 63) ≤ x → x < 2 ^ 63 → wrapInt64 x = x) :=
  ⟨mapGet_sample_a,
    summarize_success_classification sampleRuntime ⟨sampleLog⟩ "a" sampleMetricsA
      mapGet_sample_a⟩

/-! ## The list of distinct errors -/

theorem errorsAgree_newMetrics : ErrorsAgree newMetrics := by
  intro e
  simp [newMetrics, mapGet]

theorem recordStat_Errors_of_agree (m : Metrics) (s : stat) (hm : ErrorsAgree m) :
    (recordStat m s).Errors = errorsStep m.Errors s.err := by
  rw [recordStat_Errors, errorsStep]
  simp only [hm s.err]

theorem errorsAgree_recordStat (m : Metrics) (s : stat) (hm : ErrorsAgree m) :
    ErrorsAgree (recordStat m s) := by
  intro e
  rw [recordStat_Errors, recordStat_errors]
  by_cases hc : s.err ≠ "" ∧ mapGet m.errors s.err = none
  · rw [if_pos hc, if_pos hc, mapGet_mapSet]
    by_cases he : s.err = e
    · simp [he]
    · have he' : ¬ e = s.err := fun h => he h.symm
      simp [he, he', hm e]
  · rw [if_neg hc, if_neg hc]
    exact hm e

theorem foldl_recordStat_Errors (xs : List stat) (m : Metrics) (hm : ErrorsAgree m) :
    (xs.foldl recordStat m).Errors = (xs.map stat.err).foldl errorsStep m.Errors := by
  induction xs generalizing m with
  | nil => rfl
  | cons s rest ih =>
    rw [List.foldl_cons, ih _ (errorsAgree_recordStat m s hm),
      recordStat_Errors_of_agree m s hm]
    rfl

theorem mem_foldl_errorsStep (es : List String) (e : String) :
    e ∈ es.foldl errorsStep [] ↔ e ≠ "" ∧ e ∈ es := by
  induction es using List.reverseRecOn with
  | nil => simp
  | append_singleton init x ih =>
    rw [List.foldl_append, List.foldl_cons, List.foldl_nil, errorsStep]
    by_cases hc : x ≠ "" ∧ x ∉ init.foldl errorsStep []
    · rw [if_pos hc, List.mem_append, ih, List.mem_append, List.mem_singleton]
      constructor
      · rintro (⟨h1, h2⟩ | h)
        · exact ⟨h1, Or.inl h2⟩
        · exact ⟨h ▸ hc.1, Or.inr h⟩
      · rintro ⟨h1, h2 | h2⟩
        · exact Or.inl ⟨h1, h2⟩
        · exact Or.inr h2
    · rw [if_neg hc, ih, List.mem_append, List.mem_singleton]
      constructor
      · rintro ⟨h1, h2⟩
        exact ⟨h1, Or.inl h2⟩
      · rintro ⟨h1, h2 | h2⟩
        · exact ⟨h1, h2⟩
        · subst h2
          rw [not_and_or, not_not] at hc
          rcases hc with hc | hc
          · exact absurd hc h1
          · exact ⟨h1, ((ih).1 (not_not.1 hc)).2⟩

theorem nodup_foldl_errorsStep (es : List String) : (es.foldl errorsStep []).Nodup := by
  induction es using List.reverseRecOn with
  | nil => simp
  | append_singleton init x ih =>
    rw [List.foldl_append, List.foldl_cons, List.foldl_nil, errorsStep]
    split_ifs with hc
    · exact List.Nodup.append ih (List.nodup_singleton x) (by simpa using hc.2)
    · exact ih

/-- The listed errors stand in the order of their first occurrence. -/
theorem pairwise_foldl_errorsStep (es : List String) :
    (es.foldl errorsStep []).Pairwise
      (fun a b => List.indexOf a es < List.indexOf b es) := by
  induction es using List.reverseRecOn with
  | nil => simp
  | append_singleton init x ih =>
    rw [List.foldl_append, List.foldl_cons, List.foldl_nil, errorsStep]
    have hkeep : (init.foldl errorsStep []).Pairwise
        (fun a b => List.indexOf a (init ++ [x]) < List.indexOf b (init ++ [x])) := by
      refine List.Pairwise.imp_of_mem ?_ ih
      intro a b ha hb hab
      rw [List.indexOf_append_of_mem ((mem_foldl_errorsStep init a).1 ha).2,
        List.indexOf_append_of_mem ((mem_foldl_errorsStep init b).1 hb).2]
      exact hab
    split_ifs with hc
    · rw [List.pairwise_append]
      refine ⟨hkeep, List.pairwise_singleton _ _, ?_⟩
      intro a ha b hb
      rw [List.mem_singleton] at hb
      subst hb
      have hain : a ∈ init := ((mem_foldl_errorsStep init a).1 ha).2
      have hbnot : b ∉ init := fun hb => hc.2 ((mem_foldl_errorsStep init b).2 ⟨hc.1, hb⟩)
      rw [List.indexOf_append_of_mem hain, List.indexOf_append_of_not_mem hbnot]
      have := List.indexOf_lt_length.2 hain
      omega
    · exact hkeep

theorem eq_singleton_of_nodup (l : List String) (e : String) (hn : l.Nodup)
    (hall : ∀ x ∈ l, x = e) (he : e ∈ l) : l = [e] := by
  cases l with
  | nil => cases he
  | cons a t =>
    have ha : a = e := hall a (List.mem_cons_self a t)
    subst ha
    cases t with
    | nil => rfl
    | cons b u =>
      have hb : b = a := hall b (by simp)
      subst hb
      simp at hn

/-- C3: for an entry of the result of `SummarizeMetrics`, the `Errors` list has no
duplicates, holds exactly the non-empty `err` texts of the stats of the label, and lists
them in the order of their first occurrence in the stats log; when the log is 50 copies
of one stat with a non-empty `err`, `Errors` has length 1 and `Requests` is 50. -/
theorem summarize_errors_distinct_first_seen (rt : Runtime) (h : HttpClient) (L : String)
    (m : Metrics) (hm : mapGet (h.SummarizeMetrics rt).1 L = some m) :
    m.Errors.Nodup ∧
      (∀ e : String, e ∈ m.Errors ↔ e ≠ "" ∧ ∃ s ∈ h.stats, s.name = L ∧ s.err = e) ∧
      m.Errors.Pairwise (fun a b =>
        List.indexOf a ((h.stats.filter (fun s => s.name = L)).map stat.err) <
          List.indexOf b ((h.stats.filter (fun s => s.name = L)).map stat.err)) ∧
      (∀ s : stat, s.err ≠ "" → h.stats = List.replicate 50 s →
        m.Errors.length = 1 ∧ m.Requests = 50) := by
  obtain ⟨hL, rfl⟩ := mem_of_mapGet_SummarizeMetrics rt h L m hm
  have hE : (finalizeMetrics rt ((labelStats L h.stats).foldl recordStat newMetrics)).Errors =
      ((labelStats L h.stats).map stat.err).foldl errorsStep [] := by
    rw [finalizeMetrics_Errors, foldl_recordStat_Errors _ _ errorsAgree_newMetrics]
    rfl
  have hmem : ∀ e : String,
      e ∈ ((labelStats L h.stats).map stat.err).foldl errorsStep [] ↔
        e ≠ "" ∧ ∃ s ∈ h.stats, s.name = L ∧ s.err = e := by
    intro e
    rw [mem_foldl_errorsStep]
    simp only [labelStats, List.mem_map, List.mem_filter, decide_eq_true_eq, and_assoc]
  rw [hE]
  refine ⟨nodup_foldl_errorsStep _, hmem, pairwise_foldl_errorsStep _, ?_⟩
  intro s hs hrep
  constructor
  · have hone : ((labelStats L h.stats).map stat.err).foldl errorsStep [] = [s.err] := by
      apply eq_singleton_of_nodup _ _ (nodup_foldl_errorsStep _)
      · intro x hx
        obtain ⟨-, t, ht, -, hte⟩ := (hmem x).1 hx
        rw [hrep] at ht
        rw [← hte, (List.eq_of_mem_replicate ht)]
      · rw [hmem]
        obtain ⟨t, ht, htL⟩ := List.mem_map.1 hL
        have hts : t = s := by
          rw [hrep] at ht
          exact List.eq_of_mem_replicate ht
        subst hts
        exact ⟨hs, t, ht, htL, rfl⟩
    rw [hone]
    rfl
  · rw [finalizeMetrics_Requests, foldl_recordStat_Requests, length_labelStats]
    obtain ⟨t, ht, htL⟩ := List.mem_map.1 hL
    have hts : t = s := by
      rw [hrep] at ht
      exact List.eq_of_mem_replicate ht
    subst hts
    rw [hrep, List.countP_replicate]
    simp [htL, newMetrics]

theorem summarize_errors_distinct_first_seen_witness :
    (∃ m, mapGet (HttpClient.SummarizeMetrics sampleRuntime
          ⟨List.replicate 50 sampleFailure⟩).1 "a" = some m ∧
        m.Errors.length = 1 ∧ m.Requests = 50) ∧
      mapGet (HttpClient.SummarizeMetrics sampleRuntime ⟨sampleLog⟩).1 "a" =
        some sampleMetricsA ∧
      sampleMetricsA.Errors.Nodup ∧
      (∀ e : String, e ∈ sampleMetricsA.Errors ↔
        e ≠ "" ∧ ∃ s ∈ sampleLog, s.name = "a" ∧ s.err = e) ∧
      sampleMetricsA.Errors.Pairwise (fun a b =>
        List.indexOf a ((sampleLog.filter (fun s => s.name = "a")).map stat.err) <
          List.indexOf b ((sampleLog.filter (fun s => s.name = "a")).map stat.err)) ∧
      (∀ s : stat, s.err ≠ "" → sampleLog = List.replicate 50 s →
        sampleMetricsA.Errors.length = 1 ∧ sampleMetricsA.Requests = 50) :=
  ⟨⟨_, mapGet_SummarizeMetrics_some sampleRuntime ⟨List.replicate 50 sampleFailure⟩ "a"
      (by decide),
    (summarize_errors_distinct_first_seen sampleRuntime ⟨List.replicate 50 sampleFailure⟩
      "a" _ (mapGet_SummarizeMetrics_some sampleRuntime ⟨List.replicate 50 sampleFailure⟩
        "a" (by decide))).2.2.2 sampleFailure (by decide) rfl⟩,
    mapGet_sample_a,
    summarize_errors_distinct_first_seen sampleRuntime ⟨sampleLog⟩ "a" sampleMetricsA
      mapGet_sample_a⟩

/-! ## The success ratio -/

theorem labelStats_length_pos (L : String) (stats : List stat)
    (hL : L ∈ stats.map stat.name) : 0 < (labelStats L stats).length := by
  rw [List.length_pos]
  intro hnil
  exact (labelStats_eq_nil_iff L stats).1 hnil hL

/-- The `float64` quotient of a count `a` by a count `b` with `a <= b`, `0 < b` and
`b <= 2^53`: finite, in [0, 1], within `2^-54` of `a / b`, 1 only for `a = b` and 0
only for `a = 0`. -/
theorem ofRat_counts (a b : ℕ) (hb : 0 < b) (hab : a ≤ b) (hb53 : b ≤ 2 ^ 53) :
    ∃ q : ℚ, F64.ofRat ((a : ℚ) / (b : ℚ)) = .fin q ∧ 0 ≤ q ∧ q ≤ 1 ∧
      |q - (a : ℚ) / (b : ℚ)| ≤ 1 / 2 ^ 54 ∧ (q = 1 ↔ a = b) ∧ (q = 0 ↔ a = 0) := by
  have hbq : (0 : ℚ) < (b : ℚ) := by exact_mod_cast hb
  have h54 : (0 : ℚ) ≤ 1 / 2 ^ 54 := by positivity
  rcases Nat.eq_zero_or_pos a with ha0 | ha0
  · subst ha0
    refine ⟨0, ?_, le_refl 0, zero_le_one, ?_, ?_, ?_⟩
    · simpa using ofRat_zero
    · simp
    · constructor
      · intro h01; exact absurd h01 (by norm_num)
      · intro h0b; omega
    · simp
  rcases Nat.lt_or_ge a b with hlt | hge
  · have haq : (1 : ℚ) ≤ (a : ℚ) := by exact_mod_cast ha0
    have hb53q : (b : ℚ) ≤ 2 ^ 53 := by exact_mod_cast hb53
    have hltq : (a : ℚ) + 1 ≤ (b : ℚ) := by exact_mod_cast hlt
    have h1 : (1 : ℚ) / 2 ^ 53 ≤ (a : ℚ) / (b : ℚ) := by
      rw [div_le_div_iff₀ (by positivity) hbq]
      nlinarith
    have h2 : (a : ℚ) / (b : ℚ) ≤ 1 - 1 / 2 ^ 53 := by
      have hinv : (1 : ℚ) / 2 ^ 53 ≤ 1 / (b : ℚ) :=
        one_div_le_one_div_of_le hbq hb53q
      have hle : (a : ℚ) / (b : ℚ) ≤ 1 - 1 / (b : ℚ) := by
        rw [div_le_iff₀ hbq, sub_mul, one_mul, one_div, inv_mul_cancel₀ hbq.ne']
        linarith
      linarith
    obtain ⟨q, hq, hq0, hq1, hqx⟩ := ofRat_ratio _ h1 h2
    refine ⟨q, hq, hq0.le, hq1.le, hqx, ?_, ?_⟩
    · constructor
      · intro h; exact absurd h hq1.ne
      · intro h; omega
    · constructor
      · intro h; exact absurd h hq0.ne'
      · intro h; omega
  · have heq : a = b := le_antisymm hab hge
    subst heq
    refine ⟨1, ?_, zero_le_one, le_refl 1, ?_, ?_, ?_⟩
    · rw [div_self hbq.ne']
      have h := ofRat_exact 1 0 (by norm_num) (by norm_num) (by norm_num)
      simpa using h
    · rw [div_self hbq.ne']
      simp
    · simp
    · constructor
      · intro h; exact absurd h (by norm_num)
      · intro h; omega

theorem roundHalfEven_of_lt_half (y : ℚ) (n : Int) (h1 : (n : ℚ) ≤ y)
    (h2 : y < (n : ℚ) + 1 / 2) : roundHalfEven y = n := by
  have hfl : ⌊y⌋ = n := by
    rw [Int.floor_eq_iff]
    constructor
    · exact h1
    · linarith
  unfold roundHalfEven
  rw [hfl, if_pos (by linarith)]

/-- One success out of three requests: the quotient is the `float64` with the bits
`0x3fd5555555555555`, not the rational 1/3. -/
theorem divInts_one_three :
    F64.divInts 1 3 = .fin (6004799503160661 / 18014398509481984) ∧
      (6004799503160661 : ℚ) / 18014398509481984 ≠ 1 / 3 := by
  refine ⟨?_, by norm_num⟩
  have hc := divInts_counts 1 3 (by norm_num) (by norm_num) (by norm_num)
  have hc' : F64.divInts 1 3 = F64.ofRat (1 / 3) := by simpa using hc
  rw [hc']
  have habs : |(1 : ℚ) / 3| = 1 / 3 := abs_of_pos (by norm_num)
  have hlog : Int.log 2 ((1 : ℚ) / 3) = -2 := by
    apply le_antisymm
    · have h : Int.log 2 ((1 : ℚ) / 3) < -1 := by
        apply (Int.lt_zpow_iff_log_lt (by norm_num) (by norm_num)).1
        norm_num
      omega
    · apply (Int.zpow_le_iff_le_log (by norm_num) (by norm_num)).1
      norm_num
  have hu : (2 : ℚ) ^ (max (Int.log 2 |(1 : ℚ) / 3|) (-1022) - 52) = 1 / 18014398509481984 := by
    rw [habs, hlog]
    norm_num
  apply ofRat_eq_fin
  · rw [hu, roundHalfEven_of_lt_half _ 6004799503160661 (by norm_num) (by norm_num)]
    norm_num
  · have hbig : (1 : ℚ) ≤ (2 : ℚ) ^ (1024 : ℕ) := one_le_pow₀ (by norm_num)
    have : (6004799503160661 : ℚ) / 18014398509481984 < 1 := by norm_num
    linarith
  · have hbig : (1 : ℚ) ≤ (2 : ℚ) ^ (1024 : ℕ) := one_le_pow₀ (by norm_num)
    have : (0 : ℚ) < (6004799503160661 : ℚ) / 18014398509481984 := by norm_num
    linarith

/-- C4: for an entry of the result of `SummarizeMetrics`, `Requests` is positive and
`Success` is the `float64` quotient of `SuccessCount` by `Requests`; for up to `2^53`
requests, which `float64` counts exactly, that quotient is never the NaN of `0 / 0`, it
is the `float64` nearest to `SuccessCount / Requests` (within `2^-54` of it), lies in
[0, 1], is 1 exactly when every stat of the label is a success and 0 exactly when none
is. -/
theorem summarize_success_ratio (rt : Runtime) (h : HttpClient) (L : String)
    (m : Metrics) (hm : mapGet (h.SummarizeMetrics rt).1 L = some m) :
    0 < m.Requests ∧
      m.Success = F64.divInts (m.SuccessCount : Int) (m.Requests : Int) ∧
      (m.Requests ≤ 2 ^ 53 →
        m.Success = F64.ofRat ((m.SuccessCount : ℚ) / (m.Requests : ℚ)) ∧
        m.Success ≠ F64.nan ∧
        ∃ q : ℚ, m.Success = F64.fin q ∧ 0 ≤ q ∧ q ≤ 1 ∧
          |q - (m.SuccessCount : ℚ) / (m.Requests : ℚ)| ≤ 1 / 2 ^ 54 ∧
          (q = 1 ↔
            ∀ s ∈ h.stats, s.name = L → 200 ≤ s.statusCode ∧ s.statusCode < 300) ∧
          (q = 0 ↔
            ∀ s ∈ h.stats, s.name = L →
              ¬ (200 ≤ s.statusCode ∧ s.statusCode < 300))) := by
  obtain ⟨hL, rfl⟩ := mem_of_mapGet_SummarizeMetrics rt h L m hm
  have hR : (finalizeMetrics rt ((labelStats L h.stats).foldl recordStat newMetrics)).Requests =
      (labelStats L h.stats).length := by
    rw [finalizeMetrics_Requests, foldl_recordStat_Requests]
    simp [newMetrics]
  have hS : (finalizeMetrics rt
      ((labelStats L h.stats).foldl recordStat newMetrics)).SuccessCount =
      (labelStats L h.stats).countP isSuccess := by
    rw [finalizeMetrics_SuccessCount, foldl_recordStat_SuccessCount]
    simp [newMetrics]
  have hdiv : (finalizeMetrics rt
      ((labelStats L h.stats).foldl recordStat newMetrics)).Success =
      F64.divInts (((labelStats L h.stats).countP isSuccess : ℕ) : Int)
        (((labelStats L h.stats).length : ℕ) : Int) := by
    rw [finalizeMetrics_Success, foldl_recordStat_SuccessCount, foldl_recordStat_Requests]
    simp [newMetrics]
  rw [hR, hS, hdiv]
  have hpos : 0 < (labelStats L h.stats).length := labelStats_length_pos L h.stats hL
  refine ⟨hpos, rfl, ?_⟩
  intro hN
  have hle : (labelStats L h.stats).countP isSuccess ≤ (labelStats L h.stats).length :=
    List.countP_le_length _
  have hall : (labelStats L h.stats).countP isSuccess = (labelStats L h.stats).length ↔
      ∀ s ∈ h.stats, s.name = L → 200 ≤ s.statusCode ∧ s.statusCode < 300 := by
    rw [List.countP_eq_length]
    simp only [labelStats, List.mem_filter, decide_eq_true_eq, isSuccess, and_imp]
  have hnone : (labelStats L h.stats).countP isSuccess = 0 ↔
      ∀ s ∈ h.stats, s.name = L → ¬ (200 ≤ s.statusCode ∧ s.statusCode < 300) := by
    rw [List.countP_eq_zero]
    simp only [labelStats, List.mem_filter, decide_eq_true_eq, isSuccess, and_imp]
  have hrat := divInts_counts _ _ hpos hle hN
  obtain ⟨q, hq, hq0, hq1, hqx, hone, hzero⟩ := ofRat_counts _ _ hpos hle hN
  refine ⟨hrat, ?_, q, hrat.trans hq, hq0, hq1, hqx, hone.trans hall, hzero.trans hnone⟩
  rw [hrat, hq]
  intro hnan
  cases hnan

theorem summarize_success_ratio_witness :
    (mapGet (HttpClient.SummarizeMetrics sampleRuntime ⟨sampleLog⟩).1 "a" =
        some sampleMetricsA ∧ sampleMetricsA.Requests ≤ 2 ^ 53) ∧
      0 < sampleMetricsA.Requests ∧
      sampleMetricsA.Success =
        F64.divInts (sampleMetricsA.SuccessCount : Int) (sampleMetricsA.Requests : Int) ∧
      sampleMetricsA.Success =
        F64.ofRat ((sampleMetricsA.SuccessCount : ℚ) / (sampleMetricsA.Requests : ℚ)) ∧
      sampleMetricsA.Success ≠ F64.nan :=
  ⟨⟨mapGet_sample_a, by decide⟩,
    (summarize_success_ratio sampleRuntime ⟨sampleLog⟩ "a" sampleMetricsA
      mapGet_sample_a).1,
    (summarize_success_ratio sampleRuntime ⟨sampleLog⟩ "a" sampleMetricsA
      mapGet_sample_a).2.1,
    ((summarize_success_ratio sampleRuntime ⟨sampleLog⟩ "a" sampleMetricsA
      mapGet_sample_a).2.2 (by decide)).1,
    ((summarize_success_ratio sampleRuntime ⟨sampleLog⟩ "a" sampleMetricsA
      mapGet_sample_a).2.2 (by decide)).2.1⟩

/-! ## Minimum, mean and percentiles -/

/-- C5: on the latencies 0 and 5 added in this order to a fresh `LatencyMetrics`, `Min`
ends as 5 although the minimum of the sequence is 0: after the zero sample `Min` is 0,
and `Add` reads a `Min` of 0 as "no sample yet". -/
theorem latency_min_after_zero_sample :
    ([0, 5].foldl LatencyMetrics.Add newLatencyMetrics).Min = 5 ∧
      ([0].foldl LatencyMetrics.Add newLatencyMetrics).Min = 0 ∧
      (0 : Int) ∈ [0, 5] ∧ (0 : Int) < 5 := by
  decide

/-- C6: for a log with one failed request, the entry of its label has `SuccessCount`
0, the quotient computed for `LatenciesSuccess.Mean` is `0 / 0`, which is NaN, and
`LatenciesSuccess.Mean` is what the platform makes of converting NaN to `int64`; under
`sampleRuntime` (amd64) that is the minimum `int64`, not zero. -/
theorem success_mean_without_success (rt : Runtime) :
    ∃ m, mapGet (HttpClient.SummarizeMetrics rt ⟨[sampleFailure]⟩).1 "a" = some m ∧
      m.SuccessCount = 0 ∧
      F64.divInts m.LatenciesSuccess.Total (m.SuccessCount : Int) = F64.nan ∧
      m.LatenciesSuccess.Mean = rt.indefinite ∧
      sampleRuntime.indefinite = -(2 ^ 63) := by
  refine ⟨_, mapGet_SummarizeMetrics_some rt ⟨[sampleFailure]⟩ "a" (by decide), ?_⟩
  have hl : labelStats "a" (HttpClient.mk [sampleFailure]).stats = [sampleFailure] := by
    decide
  have hsc : ([sampleFailure].foldl recordStat newMetrics).SuccessCount = 0 := by
    rw [foldl_recordStat_SuccessCount]
    decide
  have hls : ([sampleFailure].foldl recordStat newMetrics).LatenciesSuccess =
      newLatencyMetrics := by
    rw [foldl_recordStat_LatenciesSuccess]
    have hf : [sampleFailure].filter isSuccess = [] := by decide
    rw [hf]
    rfl
  rw [hl, finalizeMetrics_SuccessCount, finalizeMetrics_LatenciesSuccess_Total,
    finalizeMetrics_LatenciesSuccess_Mean, hsc, hls]
  have hnan : F64.divInts newLatencyMetrics.Total ((0 : ℕ) : Int) = F64.nan :=
    divInts_zero_zero
  rw [hnan]
  exact ⟨rfl, rfl, rfl, rfl⟩

/-- C8: for the latencies 0, 0, 0, 5 recorded under one label, the finalized summary
has `Min` 5 and `Max` 5, and `P50` is the estimator's answer for the samples
0, 0, 0, 5 at 0.50; `Min <= P50` holds only if that answer converts to at least 5. -/
theorem quantile_order_after_zero_samples (rt : Runtime) :
    ∃ m, mapGet (HttpClient.SummarizeMetrics rt ⟨zeroHeavyLog⟩).1 "a" = some m ∧
      m.Latencies.Min = 5 ∧ m.Latencies.Max = 5 ∧
      m.Latencies.P50 =
        (rt.estimatorGet [.fin 0, .fin 0, .fin 0, .fin 5] (.fin (50 / 100))).toDuration rt ∧
      (m.Latencies.Min ≤ m.Latencies.P50 ↔
        5 ≤ (rt.estimatorGet [.fin 0, .fin 0, .fin 0, .fin 5]
          (.fin (50 / 100))).toDuration rt) := by
  refine ⟨_, mapGet_SummarizeMetrics_some rt ⟨zeroHeavyLog⟩ "a" (by decide), ?_⟩
  have h0 : F64.ofInt 0 = .fin 0 := by simpa using ofInt_exact 0 (by norm_num)
  have h5 : F64.ofInt 5 = .fin 5 := by simpa using ofInt_exact 5 (by norm_num)
  have hhalf : F64.ofRat (50 / 100) = .fin (50 / 100) := by
    have h := ofRat_exact 1 (-1) (by norm_num) (by norm_num) (by norm_num)
    have hx : ((1 : Int) : ℚ) * (2 : ℚ) ^ (-1 : ℤ) = 50 / 100 := by norm_num
    rwa [hx] at h
  have hl : labelStats "a" (HttpClient.mk zeroHeavyLog).stats = zeroHeavyLog := by decide
  have hlat : (zeroHeavyLog.foldl recordStat newMetrics).Latencies =
      [0, 0, 0, 5].foldl LatencyMetrics.Add newLatencyMetrics := by
    rw [foldl_recordStat_Latencies]
    rfl
  have hmin : ([0, 0, 0, 5].foldl LatencyMetrics.Add newLatencyMetrics).Min = 5 := by decide
  have hmax : ([0, 0, 0, 5].foldl LatencyMetrics.Add newLatencyMetrics).Max = 5 := by decide
  have hest : ([0, 0, 0, 5].foldl LatencyMetrics.Add newLatencyMetrics).estimator =
      [.fin 0, .fin 0, .fin 0, .fin 5] := by
    simp only [List.foldl_cons, List.foldl_nil, Add_estimator, newLatencyMetrics, h0, h5,
      List.nil_append, List.cons_append]
  have hP : (finalizeMetrics rt (zeroHeavyLog.foldl recordStat newMetrics)).Latencies.P50 =
      (rt.estimatorGet [.fin 0, .fin 0, .fin 0, .fin 5] (.fin (50 / 100))).toDuration rt := by
    rw [finalizeMetrics_Latencies_P50, hlat, hest, hhalf]
  rw [hl, hP, finalizeMetrics_Latencies_Min, finalizeMetrics_Latencies_Max, hlat, hmin, hmax]
  exact ⟨rfl, rfl, rfl, Iff.rfl⟩

/-! ## SummarizeMetrics over a memory -/

namespace Heap

theorem tdigestAdd_client (mem : Memory) (e : Nat) (s : F64) :
    (tdigestAdd mem e s).client = mem.client := rfl

theorem tdigestAdd_length (mem : Memory) (e : Nat) (s : F64) :
    (tdigestAdd mem e s).digests.length = mem.digests.length := by
  simp [tdigestAdd]

theorem tdigestAdd_get_self (mem : Memory) (e : Nat) (s : F64) (he : e < mem.digests.length) :
    (tdigestAdd mem e s).digests[e]?.getD [] = mem.digests[e]?.getD [] ++ [s] := by
  simp [tdigestAdd, List.getElem?_set, he]

theorem tdigestAdd_get_other (mem : Memory) (e p : Nat) (s : F64) (hp : e ≠ p) :
    (tdigestAdd mem e s).digests[p]? = mem.digests[p]? := by
  simp [tdigestAdd, List.getElem?_set_ne hp]

theorem Add_pointer (l : LatencyMetrics) (x : Int) (mem : Memory) :
    (l.Add x mem).1.estimator = l.estimator := by
  by_cases h1 : x > l.Max <;> by_cases h2 : x < l.Min ∨ l.Min = 0 <;>
    simp [LatencyMetrics.Add, h1, h2]

theorem Add_memory (l : LatencyMetrics) (x : Int) (mem : Memory) :
    (l.Add x mem).2 = tdigestAdd mem l.estimator (F64.ofInt x) := by
  by_cases h1 : x > l.Max <;> by_cases h2 : x < l.Min ∨ l.Min = 0 <;>
    simp [LatencyMetrics.Add, h1, h2]

/-- `Add` over the memory does to the value read from memory what `Add` on values
does. -/
theorem Add_read (l : LatencyMetrics) (x : Int) (mem : Memory)
    (he : l.estimator < mem.digests.length) :
    (l.Add x mem).1.read (l.Add x mem).2 = (l.read mem).Add x := by
  have hget := tdigestAdd_get_self mem l.estimator (F64.ofInt x) he
  rw [Add_memory]
  by_cases h1 : x > l.Max <;> by_cases h2 : x < l.Min ∨ l.Min = 0 <;>
    simp [LatencyMetrics.Add, loadtester.LatencyMetrics.Add, LatencyMetrics.read, h1, h2,
      hget]

/-- Reading a `LatencyMetrics` depends on the memory only through its own t-digest. -/
theorem read_congr (l : LatencyMetrics) (mem mem' : Memory)
    (h : mem'.digests[l.estimator]? = mem.digests[l.estimator]?) :
    l.read mem' = l.read mem := by
  simp [LatencyMetrics.read, h]

theorem Metrics_read_congr (m : Metrics) (mem mem' : Memory)
    (h1 : mem'.digests[m.Latencies.estimator]? = mem.digests[m.Latencies.estimator]?)
    (h2 : mem'.digests[m.LatenciesSuccess.estimator]? =
      mem.digests[m.LatenciesSuccess.estimator]?) :
    m.read mem' = m.read mem := by
  simp [Metrics.read, read_congr _ _ _ h1, read_congr _ _ _ h2]


/-- The metrics that `recordStat` returns, written with the results of the two `Add`s. -/
theorem recordStat_fst (m : Metrics) (s : stat) (mem : Memory) :
    (recordStat m s mem).1 =
      (let m1 : Metrics := { m with
          Requests := m.Requests + 1,
          StatusCodes := mapSet m.StatusCodes s.statusCode
            ((mapGet m.StatusCodes s.statusCode).getD 0 + 1),
          Latencies := (m.Latencies.Add s.latency mem).1 }
       let m2 : Metrics :=
        if 200 ≤ s.statusCode ∧ s.statusCode < 300 then
          { m1 with
            LatenciesSuccess :=
              (m.LatenciesSuccess.Add s.latency (m.Latencies.Add s.latency mem).2).1,
            SuccessCount := m.SuccessCount + 1 }
        else m1
       if s.err ≠ "" then
         if (mapGet m.errors s.err).isNone then
           { m2 with errors := mapSet m.errors s.err (), Errors := m.Errors ++ [s.err] }
         else m2
       else m2) := by
  by_cases hc : 200 ≤ s.statusCode ∧ s.statusCode < 300 <;>
    by_cases he : s.err = "" <;>
    by_cases hg : (mapGet m.errors s.err).isNone = true <;>
    simp [recordStat, hc, he, hg]

theorem recordStat_snd (m : Metrics) (s : stat) (mem : Memory) :
    (recordStat m s mem).2 =
      if 200 ≤ s.statusCode ∧ s.statusCode < 300 then
        (m.LatenciesSuccess.Add s.latency (m.Latencies.Add s.latency mem).2).2
      else (m.Latencies.Add s.latency mem).2 := by
  by_cases hc : 200 ≤ s.statusCode ∧ s.statusCode < 300 <;> simp [recordStat, hc]


theorem recordStat_pointers (m : Metrics) (s : stat) (mem : Memory) :
    (recordStat m s mem).1.Latencies.estimator = m.Latencies.estimator ∧
      (recordStat m s mem).1.LatenciesSuccess.estimator = m.LatenciesSuccess.estimator := by
  rw [recordStat_fst]
  by_cases hc : 200 ≤ s.statusCode ∧ s.statusCode < 300 <;>
    by_cases he : s.err = "" <;>
    by_cases hg : (mapGet m.errors s.err).isNone = true <;>
    simp [hc, he, hg, Add_pointer]

theorem recordStat_client (m : Metrics) (s : stat) (mem : Memory) :
    (recordStat m s mem).2.client = mem.client := by
  rw [recordStat_snd]
  split_ifs <;> simp [Add_memory, tdigestAdd_client]

theorem recordStat_length (m : Metrics) (s : stat) (mem : Memory) :
    (recordStat m s mem).2.digests.length = mem.digests.length := by
  rw [recordStat_snd]
  split_ifs <;> simp [Add_memory, tdigestAdd_length]

/-- `recordStat` writes to the two t-digests of its metrics only. -/
theorem recordStat_frame (m : Metrics) (s : stat) (mem : Memory) (p : Nat)
    (h1 : m.Latencies.estimator ≠ p) (h2 : m.LatenciesSuccess.estimator ≠ p) :
    (recordStat m s mem).2.digests[p]? = mem.digests[p]? := by
  rw [recordStat_snd]
  split_ifs
  · rw [Add_memory, tdigestAdd_get_other _ _ _ _ h2, Add_memory,
      tdigestAdd_get_other _ _ _ _ h1]
  · rw [Add_memory, tdigestAdd_get_other _ _ _ _ h1]

/-- `recordStat` over the memory does to the value read from memory what `recordStat` on
values does. -/
theorem recordStat_read (m : Metrics) (s : stat) (mem : Memory)
    (hne : m.Latencies.estimator ≠ m.LatenciesSuccess.estimator)
    (h1 : m.Latencies.estimator < mem.digests.length)
    (h2 : m.LatenciesSuccess.estimator < mem.digests.length) :
    (recordStat m s mem).1.read (recordStat m s mem).2 =
      loadtester.recordStat (m.read mem) s := by
  have hA := Add_read m.Latencies s.latency mem h1
  have hAe := Add_pointer m.Latencies s.latency mem
  have hAm := Add_memory m.Latencies s.latency mem
  have hLSA : m.LatenciesSuccess.read (m.Latencies.Add s.latency mem).2 =
      m.LatenciesSuccess.read mem := by
    apply read_congr
    rw [hAm]
    exact tdigestAdd_get_other _ _ _ _ hne
  have h2A : m.LatenciesSuccess.estimator <
      (m.Latencies.Add s.latency mem).2.digests.length := by
    rw [hAm, tdigestAdd_length]
    exact h2
  have hB := Add_read m.LatenciesSuccess s.latency (m.Latencies.Add s.latency mem).2 h2A
  rw [hLSA] at hB
  have hAB : (m.Latencies.Add s.latency mem).1.read
      (m.LatenciesSuccess.Add s.latency (m.Latencies.Add s.latency mem).2).2 =
      (m.Latencies.read mem).Add s.latency := by
    rw [← hA]
    apply read_congr
    rw [Add_memory m.LatenciesSuccess, hAe]
    exact tdigestAdd_get_other _ _ _ _ (Ne.symm hne)
  rw [recordStat_fst, recordStat_snd]
  by_cases hc : 200 ≤ s.statusCode ∧ s.statusCode < 300 <;>
    by_cases he : s.err = "" <;>
    by_cases hg : (mapGet m.errors s.err).isNone = true <;>
    simp [loadtester.recordStat, Metrics.read, hc, he, hg, hA, hB, hAB, hLSA]


theorem newMetrics_pointers (mem : Memory) :
    (newMetrics mem).1.Latencies.estimator = mem.digests.length ∧
      (newMetrics mem).1.LatenciesSuccess.estimator = mem.digests.length + 1 := by
  simp [newMetrics, newLatencyMetrics, newTdigestEstimator]

theorem newMetrics_client (mem : Memory) : (newMetrics mem).2.client = mem.client := rfl

theorem newMetrics_digests (mem : Memory) :
    (newMetrics mem).2.digests = mem.digests ++ [[], []] := by
  simp [newMetrics, newLatencyMetrics, newTdigestEstimator]

theorem newMetrics_read (mem : Memory) :
    (newMetrics mem).1.read (newMetrics mem).2 = loadtester.newMetrics := by
  have e1 : (mem.digests ++ [[], []])[mem.digests.length]? = some ([] : List F64) := by
    rw [List.getElem?_append_right (le_refl _)]
    simp
  have e2 : (mem.digests ++ [[], []])[mem.digests.length + 1]? = some ([] : List F64) := by
    rw [List.getElem?_append_right (by omega)]
    simp
  simp only [newMetrics, newLatencyMetrics, newTdigestEstimator, Metrics.read,
    LatencyMetrics.read, loadtester.newMetrics, loadtester.newLatencyMetrics,
    List.append_assoc, List.singleton_append, List.length_append, List.length_singleton,
    e1, e2, Option.getD_some]

theorem mapGet_readAll (mem : Memory) (mp : List (String × Metrics)) (k : String) :
    mapGet (readAll mem mp) k = (mapGet mp k).map (Metrics.read mem) := by
  induction mp with
  | nil => rfl
  | cons e rest ih =>
    obtain ⟨a, b⟩ := e
    by_cases hak : a = k
    · simp [readAll, mapGet, hak]
    · simpa [readAll, mapGet, hak] using ih

theorem readAll_mapSet (mem : Memory) (mp : List (String × Metrics)) (k : String)
    (v : Metrics) :
    readAll mem (mapSet mp k v) = mapSet (readAll mem mp) k (v.read mem) := by
  induction mp with
  | nil => rfl
  | cons e rest ih =>
    obtain ⟨a, b⟩ := e
    by_cases hak : a = k
    · simp [readAll, mapSet, hak]
    · simpa [readAll, mapSet, hak] using ih

theorem readAll_congr (mem mem' : Memory) (mp : List (String × Metrics))
    (h : ∀ p ∈ pointers mp, mem'.digests[p]? = mem.digests[p]?) :
    readAll mem' mp = readAll mem mp := by
  induction mp with
  | nil => rfl
  | cons e rest ih =>
    obtain ⟨a, b⟩ := e
    have hb : b.read mem' = b.read mem :=
      Metrics_read_congr b mem mem' (h _ (by simp [pointers])) (h _ (by simp [pointers]))
    have hrest : readAll mem' rest = readAll mem rest :=
      ih (fun p hp => h p (by
        simp only [pointers, List.flatMap_cons, List.mem_append] at hp ⊢
        exact Or.inr hp))
    simp only [readAll, List.map_cons] at hrest ⊢
    rw [hb, hrest]

theorem mem_pointers_of_mapGet (mp : List (String × Metrics)) (k : String) (old : Metrics)
    (hk : mapGet mp k = some old) :
    old.Latencies.estimator ∈ pointers mp ∧ old.LatenciesSuccess.estimator ∈ pointers mp := by
  induction mp with
  | nil => simp [mapGet] at hk
  | cons e rest ih =>
    obtain ⟨a, b⟩ := e
    by_cases hak : a = k
    · simp only [mapGet, hak, if_true, Option.some.injEq] at hk
      subst hk
      simp [pointers]
    · simp only [mapGet, hak, if_false] at hk
      obtain ⟨h1, h2⟩ := ih hk
      simp only [pointers, List.flatMap_cons, List.mem_append] at h1 h2 ⊢
      exact ⟨Or.inr h1, Or.inr h2⟩

theorem pointers_mapSet_some (mp : List (String × Metrics)) (k : String) (old v : Metrics)
    (hk : mapGet mp k = some old)
    (h1 : v.Latencies.estimator = old.Latencies.estimator)
    (h2 : v.LatenciesSuccess.estimator = old.LatenciesSuccess.estimator) :
    pointers (mapSet mp k v) = pointers mp := by
  induction mp with
  | nil => simp [mapGet] at hk
  | cons e rest ih =>
    obtain ⟨a, b⟩ := e
    by_cases hak : a = k
    · simp only [mapGet, hak, if_true, Option.some.injEq] at hk
      subst hk
      simp [pointers, mapSet, hak, h1, h2]
    · simp only [mapGet, hak, if_false] at hk
      have := ih hk
      simp only [pointers, mapSet, hak, if_false, List.flatMap_cons] at this ⊢
      rw [this]

theorem pointers_mapSet_none (mp : List (String × Metrics)) (k : String) (v : Metrics)
    (hk : mapGet mp k = none) :
    pointers (mapSet mp k v) =
      pointers mp ++ [v.Latencies.estimator, v.LatenciesSuccess.estimator] := by
  induction mp with
  | nil => simp [pointers, mapSet]
  | cons e rest ih =>
    obtain ⟨a, b⟩ := e
    by_cases hak : a = k
    · simp [mapGet, hak] at hk
    · simp only [mapGet, hak, if_false] at hk
      have := ih hk
      simp only [pointers, mapSet, hak, if_false, List.flatMap_cons] at this ⊢
      rw [this]
      simp

/-- Writing the entry of a label after a step that wrote to the t-digests of that entry
only: the other entries read as before. -/
theorem readAll_mapSet_frame (mem mem' : Memory) (mp : List (String × Metrics))
    (k : String) (old v : Metrics) (hk : mapGet mp k = some old)
    (hnd : (pointers mp).Nodup)
    (hframe : ∀ p, old.Latencies.estimator ≠ p → old.LatenciesSuccess.estimator ≠ p →
      mem'.digests[p]? = mem.digests[p]?) :
    readAll mem' (mapSet mp k v) = mapSet (readAll mem mp) k (v.read mem') := by
  induction mp with
  | nil => simp [mapGet] at hk
  | cons e rest ih =>
    obtain ⟨a, b⟩ := e
    simp only [pointers, List.flatMap_cons] at hnd
    rw [List.nodup_append] at hnd
    obtain ⟨hb, hrest, hdisj⟩ := hnd
    by_cases hak : a = k
    · simp only [mapGet, hak, if_true, Option.some.injEq] at hk
      subst hk
      have hr : readAll mem' rest = readAll mem rest := by
        apply readAll_congr
        intro p hp
        apply hframe
        · intro h
          exact hdisj (by simp [h]) hp
        · intro h
          exact hdisj (by simp [h]) hp
      simp only [readAll, List.map_cons] at hr
      simp [readAll, mapSet, hak, hr]
    · simp only [mapGet, hak, if_false] at hk
      obtain ⟨ho1, ho2⟩ := mem_pointers_of_mapGet rest k old hk
      have hbr : b.read mem' = b.read mem := by
        apply Metrics_read_congr
        · apply hframe
          · intro h
            exact hdisj (by simp) (h ▸ ho1)
          · intro h
            exact hdisj (by simp) (h ▸ ho2)
        · apply hframe
          · intro h
            exact hdisj (by simp) (h ▸ ho1)
          · intro h
            exact hdisj (by simp) (h ▸ ho2)
      have := ih hk hrest
      simp only [readAll, List.map_cons, mapSet, hak, if_false] at this ⊢
      rw [hbr, this]


theorem pointers_ne_of_mapGet (mp : List (String × Metrics)) (k : String) (old : Metrics)
    (hk : mapGet mp k = some old) (hnd : (pointers mp).Nodup) :
    old.Latencies.estimator ≠ old.LatenciesSuccess.estimator := by
  induction mp with
  | nil => simp [mapGet] at hk
  | cons e rest ih =>
    obtain ⟨a, b⟩ := e
    simp only [pointers, List.flatMap_cons] at hnd
    rw [List.nodup_append] at hnd
    obtain ⟨hb, hrest, -⟩ := hnd
    by_cases hak : a = k
    · simp only [mapGet, hak, if_true, Option.some.injEq] at hk
      subst hk
      intro h
      simp [h] at hb
    · simp only [mapGet, hak, if_false] at hk
      exact ih hk hrest

/-- The update of an entry that exists keeps the two maps in agreement. -/
theorem agrees_update (mem0 : Memory) (st : List (String × Metrics) × Memory)
    (mp : List (String × loadtester.Metrics)) (s : stat) (old : Metrics)
    (hst : Agrees mem0 st mp) (hk : mapGet st.1 s.name = some old) :
    Agrees mem0
      (mapSet st.1 s.name (recordStat old s st.2).1, (recordStat old s st.2).2)
      (mapSet mp s.name (loadtester.recordStat (old.read st.2) s)) := by
  obtain ⟨hread, hnd, hbound, hclient, hlen, hold⟩ := hst
  obtain ⟨hm1, hm2⟩ := mem_pointers_of_mapGet st.1 s.name old hk
  have hne := pointers_ne_of_mapGet st.1 s.name old hk hnd
  obtain ⟨hp1, hp2⟩ := recordStat_pointers old s st.2
  have hptrs : pointers (mapSet st.1 s.name (recordStat old s st.2).1) = pointers st.1 :=
    pointers_mapSet_some st.1 s.name old _ hk hp1 hp2
  refine ⟨?_, ?_, ?_, ?_, ?_, ?_⟩
  · simp only
    rw [readAll_mapSet_frame st.2 _ st.1 s.name old _ hk hnd
      (fun p h1 h2 => recordStat_frame old s st.2 p h1 h2),
      recordStat_read old s st.2 hne (hbound _ hm1).2 (hbound _ hm2).2, hread]
  · simp only
    rw [hptrs]
    exact hnd
  · intro p hp
    simp only at hp ⊢
    rw [hptrs] at hp
    rw [recordStat_length]
    exact hbound p hp
  · simp only
    rw [recordStat_client]
    exact hclient
  · simp only
    rw [recordStat_length]
    exact hlen
  · intro p hp
    simp only
    rw [recordStat_frame old s st.2 p
      (fun h => by have := (hbound _ hm1).1; omega)
      (fun h => by have := (hbound _ hm2).1; omega)]
    exact hold p hp

/-- The allocation of the metrics of a new label keeps the two maps in agreement. -/
theorem agrees_alloc (mem0 : Memory) (st : List (String × Metrics) × Memory)
    (mp : List (String × loadtester.Metrics)) (k : String)
    (hst : Agrees mem0 st mp) (hk : mapGet st.1 k = none) :
    Agrees mem0 (mapSet st.1 k (newMetrics st.2).1, (newMetrics st.2).2)
      (mapSet mp k loadtester.newMetrics) := by
  obtain ⟨hread, hnd, hbound, hclient, hlen, hold⟩ := hst
  obtain ⟨hp1, hp2⟩ := newMetrics_pointers st.2
  have hdig := newMetrics_digests st.2
  have hptrs := pointers_mapSet_none st.1 k (newMetrics st.2).1 hk
  rw [hp1, hp2] at hptrs
  have hkeep : ∀ p, p < st.2.digests.length →
      (newMetrics st.2).2.digests[p]? = st.2.digests[p]? := by
    intro p hp
    rw [hdig, List.getElem?_append_left hp]
  refine ⟨?_, ?_, ?_, ?_, ?_, ?_⟩
  · simp only
    rw [readAll_mapSet, newMetrics_read,
      readAll_congr st.2 _ st.1 (fun p hp => hkeep p (hbound p hp).2), hread]
  · simp only
    rw [hptrs, List.nodup_append]
    refine ⟨hnd, by simp, ?_⟩
    intro p hp hq
    have := (hbound p hp).2
    simp only [List.mem_cons, List.mem_singleton, List.not_mem_nil, or_false] at hq
    omega
  · intro p hp
    simp only at hp ⊢
    rw [hptrs, List.mem_append] at hp
    rw [hdig, List.length_append]
    rcases hp with hp | hp
    · have := hbound p hp
      simp only [List.length_cons, List.length_nil]
      omega
    · simp only [List.mem_cons, List.mem_singleton, List.not_mem_nil, or_false] at hp
      simp only [List.length_cons, List.length_nil]
      omega
  · simp only
    rw [newMetrics_client]
    exact hclient
  · simp only
    rw [hdig, List.length_append]
    omega
  · intro p hp
    simp only
    rw [hkeep p (by omega)]
    exact hold p hp

/-- One pass of the first loop keeps the two maps in agreement. -/
theorem agrees_summarizeStep (mem0 : Memory) (st : List (String × Metrics) × Memory)
    (mp : List (String × loadtester.Metrics)) (s : stat) (hst : Agrees mem0 st mp) :
    Agrees mem0 (summarizeStep st s) (loadtester.summarizeStep mp s) := by
  have hget : mapGet mp s.name = (mapGet st.1 s.name).map (Metrics.read st.2) := by
    rw [← hst.1, mapGet_readAll]
  cases hk : mapGet st.1 s.name with
  | some old =>
    rw [hk] at hget
    have h := agrees_update mem0 st mp s old hst hk
    simp only [summarizeStep, loadtester.summarizeStep, hk, hget, Option.map_some']
    exact h
  | none =>
    rw [hk] at hget
    have ha := agrees_alloc mem0 st mp s.name hst hk
    have hk1 : mapGet (mapSet st.1 s.name (newMetrics st.2).1) s.name =
        some (newMetrics st.2).1 := by
      rw [mapGet_mapSet, if_pos rfl]
    have h := agrees_update mem0 _ _ s (newMetrics st.2).1 ha hk1
    simp only [newMetrics_read] at h
    simp only [summarizeStep, loadtester.summarizeStep, hk, hget, Option.map_none']
    exact h

theorem agrees_foldl (mem0 : Memory) (stats : List stat)
    (st : List (String × Metrics) × Memory) (mp : List (String × loadtester.Metrics))
    (hst : Agrees mem0 st mp) :
    Agrees mem0 (stats.foldl summarizeStep st) (stats.foldl loadtester.summarizeStep mp) := by
  induction stats generalizing st mp with
  | nil => exact hst
  | cons s rest ih => exact ih _ _ (agrees_summarizeStep mem0 st mp s hst)

theorem agrees_init (mem0 : Memory) : Agrees mem0 ([], mem0) [] := by
  refine ⟨rfl, ?_, ?_, rfl, le_refl _, fun _ _ => rfl⟩
  · simp [pointers]
  · intro p hp
    simp [pointers] at hp


theorem finalizeMetrics_read (rt : Runtime) (mem : Memory) (m : Metrics) :
    (finalizeMetrics rt mem m).read mem = loadtester.finalizeMetrics rt (m.read mem) := rfl

theorem readAll_foldl_finalize (rt : Runtime) (mem : Memory)
    (es acc : List (String × Metrics)) :
    readAll mem (es.foldl (fun acc kv => mapSet acc kv.1 (finalizeMetrics rt mem kv.2)) acc) =
      (readAll mem es).foldl
        (fun acc kv => mapSet acc kv.1 (loadtester.finalizeMetrics rt kv.2))
        (readAll mem acc) := by
  induction es generalizing acc with
  | nil => rfl
  | cons e rest ih =>
    rw [List.foldl_cons, ih, readAll_mapSet, finalizeMetrics_read]
    rfl

/-- `SummarizeMetrics` over the memory, read back as values, is `SummarizeMetrics` on
values applied to the client in memory; the client and the t-digests that existed
before the call are left as they were. -/
theorem SummarizeMetrics_read (rt : Runtime) (mem : Memory) :
    readAll (SummarizeMetrics rt mem).2 (SummarizeMetrics rt mem).1 =
        (mem.client.SummarizeMetrics rt).1 ∧
      (SummarizeMetrics rt mem).2.client = mem.client ∧
      ∀ p, p < mem.digests.length →
        (SummarizeMetrics rt mem).2.digests[p]? = mem.digests[p]? := by
  obtain ⟨hread, -, -, hclient, -, hold⟩ :=
    agrees_foldl mem mem.client.stats ([], mem) [] (agrees_init mem)
  refine ⟨?_, hclient, hold⟩
  simp only [SummarizeMetrics, HttpClient.SummarizeMetrics, finalizeAll, accumulate]
  rw [readAll_foldl_finalize, hread]

end Heap

/-- Two metrics in memory that read equal have equal counts, ratio, histogram, errors
and latency summaries. -/
theorem Heap.fields_eq_of_read_eq (mem mem' : Memory) (a b : Heap.Metrics)
    (h : a.read mem = b.read mem') :
    a.Requests = b.Requests ∧ a.SuccessCount = b.SuccessCount ∧ a.Success = b.Success ∧
      a.StatusCodes = b.StatusCodes ∧ a.Errors = b.Errors ∧
      a.Latencies.Total = b.Latencies.Total ∧ a.Latencies.Mean = b.Latencies.Mean ∧
      a.Latencies.Min = b.Latencies.Min ∧ a.Latencies.Max = b.Latencies.Max ∧
      a.LatenciesSuccess.Total = b.LatenciesSuccess.Total ∧
      a.LatenciesSuccess.Mean = b.LatenciesSuccess.Mean ∧
      a.LatenciesSuccess.Min = b.LatenciesSuccess.Min ∧
      a.LatenciesSuccess.Max = b.LatenciesSuccess.Max := by
  have hR := congrArg loadtester.Metrics.Requests h
  have hSC := congrArg loadtester.Metrics.SuccessCount h
  have hS := congrArg loadtester.Metrics.Success h
  have hC := congrArg loadtester.Metrics.StatusCodes h
  have hE := congrArg loadtester.Metrics.Errors h
  have hL := congrArg loadtester.Metrics.Latencies h
  have hLS := congrArg loadtester.Metrics.LatenciesSuccess h
  exact ⟨hR, hSC, hS, hC, hE, congrArg loadtester.LatencyMetrics.Total hL,
    congrArg loadtester.LatencyMetrics.Mean hL, congrArg loadtester.LatencyMetrics.Min hL,
    congrArg loadtester.LatencyMetrics.Max hL, congrArg loadtester.LatencyMetrics.Total hLS,
    congrArg loadtester.LatencyMetrics.Mean hLS, congrArg loadtester.LatencyMetrics.Min hLS,
    congrArg loadtester.LatencyMetrics.Max hLS⟩

/-- C7: a call of `SummarizeMetrics` leaves the client, and with it the recorded stats,
as it was, and it leaves every t-digest that existed before the call as it was (it
writes to the t-digests it allocates only); a second call right after the first, with no
`addStat` in between, returns a map that reads equal to the map of the first call
(the same labels in the same order, and for each label equal counts, ratio, histogram,
errors and latency summaries), both being what `SummarizeMetrics` on values gives for
the stats of the client. -/
theorem summarize_read_only (rt : Runtime) (mem : Memory) :
    (Heap.SummarizeMetrics rt mem).2.client = mem.client ∧
      (Heap.SummarizeMetrics rt mem).2.client.stats = mem.client.stats ∧
      (∀ p, p < mem.digests.length →
        (Heap.SummarizeMetrics rt mem).2.digests[p]? = mem.digests[p]?) ∧
      Heap.readAll (Heap.SummarizeMetrics rt (Heap.SummarizeMetrics rt mem).2).2
          (Heap.SummarizeMetrics rt (Heap.SummarizeMetrics rt mem).2).1 =
        Heap.readAll (Heap.SummarizeMetrics rt mem).2 (Heap.SummarizeMetrics rt mem).1 ∧
      (∀ L : String,
        (mapGet (Heap.SummarizeMetrics rt (Heap.SummarizeMetrics rt mem).2).1 L).map
            (Heap.Metrics.read (Heap.SummarizeMetrics rt (Heap.SummarizeMetrics rt mem).2).2) =
          (mapGet (Heap.SummarizeMetrics rt mem).1 L).map
            (Heap.Metrics.read (Heap.SummarizeMetrics rt mem).2)) ∧
      Heap.readAll (Heap.SummarizeMetrics rt mem).2 (Heap.SummarizeMetrics rt mem).1 =
        (mem.client.SummarizeMetrics rt).1 := by
  obtain ⟨h1, hc1, hold1⟩ := Heap.SummarizeMetrics_read rt mem
  obtain ⟨h2, -, -⟩ := Heap.SummarizeMetrics_read rt (Heap.SummarizeMetrics rt mem).2
  have heq : Heap.readAll (Heap.SummarizeMetrics rt (Heap.SummarizeMetrics rt mem).2).2
      (Heap.SummarizeMetrics rt (Heap.SummarizeMetrics rt mem).2).1 =
      Heap.readAll (Heap.SummarizeMetrics rt mem).2 (Heap.SummarizeMetrics rt mem).1 := by
    rw [h2, hc1, h1]
  refine ⟨hc1, by rw [hc1], hold1, heq, ?_, h1⟩
  intro L
  rw [← Heap.mapGet_readAll, ← Heap.mapGet_readAll, heq]

theorem summarize_read_only_witness :
    (0 < sampleMemory.digests.length ∧
      (Heap.SummarizeMetrics sampleRuntime sampleMemory).2.digests[0]? =
        sampleMemory.digests[0]?) ∧
      (Heap.SummarizeMetrics sampleRuntime sampleMemory).2.client.stats = sampleLog ∧
      Heap.readAll
          (Heap.SummarizeMetrics sampleRuntime
            (Heap.SummarizeMetrics sampleRuntime sampleMemory).2).2
          (Heap.SummarizeMetrics sampleRuntime
            (Heap.SummarizeMetrics sampleRuntime sampleMemory).2).1 =
        Heap.readAll (Heap.SummarizeMetrics sampleRuntime sampleMemory).2
          (Heap.SummarizeMetrics sampleRuntime sampleMemory).1 ∧
      Heap.pointers (Heap.SummarizeMetrics sampleRuntime sampleMemory).1 = [1, 2, 3, 4] ∧
      Heap.pointers
          (Heap.SummarizeMetrics sampleRuntime
            (Heap.SummarizeMetrics sampleRuntime sampleMemory).2).1 = [5, 6, 7, 8] ∧
      (Heap.SummarizeMetrics sampleRuntime sampleMemory).2.digests.length = 5 :=
  ⟨⟨by decide, (summarize_read_only sampleRuntime sampleMemory).2.2.1 0 (by decide)⟩,
    (summarize_read_only sampleRuntime sampleMemory).2.1,
    (summarize_read_only sampleRuntime sampleMemory).2.2.2.1,
    by decide, by decide, by decide⟩

/-! ## The dispatch loop of Start -/

theorem tickCount_step (rate : Rate) (duration : Int) (hF : 0 ≤ rate.Freq)
    (s s' : StartState) (e : Event) (hs : TickCount rate s)
    (h : stepStart rate duration s e = some s') : TickCount rate s' := by
  obtain ⟨now, ctxDone, cancelled, dispatch, ticks, launched, late⟩ := s
  cases e with
  | advance dt =>
    simp only [stepStart, Option.some.injEq] at h
    subst h
    exact hs
  | ctxCancel =>
    simp only [stepStart, Option.some.injEq] at h
    subst h
    exact hs
  | stop =>
    simp only [stepStart] at h
    split_ifs at h
    simp only [Option.some.injEq] at h
    subst h
    exact hs
  | dispatch =>
    cases dispatch with
    | atSelect =>
      simp only [stepStart] at h
      simp only [TickCount] at hs
      split_ifs at h <;> simp only [Option.some.injEq] at h <;> subst h
      · simpa [TickCount] using hs
      · simp only [TickCount]
        refine ⟨le_refl 0, hF, by omega, ?_⟩
        push_cast
        rw [hs]
        ring
    | launching i =>
      simp only [stepStart] at h
      simp only [TickCount] at hs
      obtain ⟨h0, hle, ht, hl⟩ := hs
      by_cases hi : i < rate.Freq
      · rw [if_pos hi] at h
        simp only [Option.some.injEq] at h
        subst h
        simp only [TickCount]
        refine ⟨by omega, by omega, ht, ?_⟩
        push_cast
        rw [hl]
        ring
      · rw [if_neg hi] at h
        simp only [Option.some.injEq] at h
        subst h
        simp only [TickCount]
        have hi' : i = rate.Freq := le_antisymm hle (not_lt.1 hi)
        rw [hl, hi']
        ring
    | sleeping due =>
      simp only [stepStart] at h
      split_ifs at h
      simp only [Option.some.injEq] at h
      subst h
      simpa [TickCount] using hs
    | returned =>
      simp [stepStart] at h

theorem lateLaunches_step (rate : Rate) (duration : Int)
    (s s' : StartState) (e : Event) (ht : TickCount rate s) (hs : LateLaunches rate s)
    (h : stepStart rate duration s e = some s') : LateLaunches rate s' := by
  obtain ⟨now, ctxDone, cancelled, dispatch, ticks, launched, late⟩ := s
  cases e with
  | advance dt =>
    simp only [stepStart, Option.some.injEq] at h
    subst h
    exact hs
  | ctxCancel =>
    simp only [stepStart, Option.some.injEq] at h
    subst h
    exact hs
  | stop =>
    simp only [stepStart] at h
    split_ifs at h with hc
    simp only [Option.some.injEq] at h
    subst h
    refine ⟨by simp, hs.2⟩
  | dispatch =>
    cases dispatch with
    | atSelect =>
      simp only [stepStart] at h
      obtain ⟨hs1, hs2⟩ := hs
      simp only at hs1 hs2
      split_ifs at h with hc <;> simp only [Option.some.injEq] at h <;> subst h
      · exact ⟨hs1, hs2⟩
      · have hcn : cancelled = false := by
          cases cancelled
          · rfl
          · exact absurd (Or.inr rfl) hc
        refine ⟨hs1, ?_⟩
        simp only
        rw [hs1 hcn]
        simp
    | launching i =>
      simp only [stepStart] at h
      simp only [TickCount] at ht
      obtain ⟨h0, hle, -, -⟩ := ht
      obtain ⟨hs1, hs2⟩ := hs
      simp only at hs1 hs2
      by_cases hi : i < rate.Freq
      · rw [if_pos hi] at h
        simp only [Option.some.injEq] at h
        subst h
        refine ⟨?_, ?_⟩
        · intro hc
          simp only at hc
          simp [hc, hs1 hc]
        · simp only
          cases cancelled
          · simp only [Bool.false_eq_true, if_false, add_zero]
            omega
          · simp only [if_true]
            push_cast
            omega
      · rw [if_neg hi] at h
        simp only [Option.some.injEq] at h
        subst h
        refine ⟨hs1, ?_⟩
        simp only
        omega
    | sleeping due =>
      simp only [stepStart] at h
      split_ifs at h
      simp only [Option.some.injEq] at h
      subst h
      exact hs
    | returned =>
      simp [stepStart] at h

theorem pace_step (rate : Rate) (duration : Int)
    (s s' : StartState) (e : Event) (hs : Pace rate s)
    (h : stepStart rate duration s e = some s') : Pace rate s' := by
  obtain ⟨now, ctxDone, cancelled, dispatch, ticks, launched, late⟩ := s
  cases e with
  | advance dt =>
    simp only [stepStart, Option.some.injEq] at h
    subst h
    obtain ⟨h1, h2, h3⟩ := hs
    simp only at h1 h2 h3
    refine ⟨by simp only; omega, by simp only; omega, ?_⟩
    cases dispatch <;> simp only at h3 ⊢
    · omega
    · exact h3
  | ctxCancel =>
    simp only [stepStart, Option.some.injEq] at h
    subst h
    exact hs
  | stop =>
    simp only [stepStart] at h
    split_ifs at h
    simp only [Option.some.injEq] at h
    subst h
    exact hs
  | dispatch =>
    obtain ⟨h1, h2, h3⟩ := hs
    simp only at h1 h2 h3
    cases dispatch with
    | atSelect =>
      simp only [stepStart] at h
      simp only at h3
      split_ifs at h <;> simp only [Option.some.injEq] at h <;> subst h
      · exact ⟨h1, h2, trivial⟩
      · refine ⟨h1, ?_, trivial⟩
        simp only
        push_cast
        linarith
    | launching i =>
      simp only [stepStart] at h
      by_cases hi : i < rate.Freq
      · rw [if_pos hi] at h
        simp only [Option.some.injEq] at h
        subst h
        exact ⟨h1, h2, trivial⟩
      · rw [if_neg hi] at h
        simp only [Option.some.injEq] at h
        subst h
        refine ⟨h1, h2, ?_⟩
        simp only
        linarith
    | sleeping due =>
      simp only [stepStart] at h
      simp only at h3
      split_ifs at h with hd
      simp only [Option.some.injEq] at h
      subst h
      refine ⟨h1, h2, ?_⟩
      simp only
      linarith
    | returned =>
      simp [stepStart] at h

theorem invariants_run (rate : Rate) (duration : Int) (hF : 0 ≤ rate.Freq)
    (schedule : List Event) (s s' : StartState)
    (hs : TickCount rate s ∧ LateLaunches rate s ∧ Pace rate s)
    (h : runStart rate duration s schedule = some s') :
    TickCount rate s' ∧ LateLaunches rate s' ∧ Pace rate s' := by
  induction schedule generalizing s with
  | nil =>
    simp only [runStart, Option.some.injEq] at h
    subst h
    exact hs
  | cons e rest ih =>
    simp only [runStart] at h
    cases hstep : stepStart rate duration s e with
    | none => rw [hstep] at h; cases h
    | some s1 =>
      rw [hstep] at h
      exact ih s1 ⟨tickCount_step rate duration hF s s1 e hs.1 hstep,
        lateLaunches_step rate duration s s1 e hs.1 hs.2.1 hstep,
        pace_step rate duration s s1 e hs.2.2 hstep⟩ h

theorem invariants_init (rate : Rate) (hF : 0 ≤ rate.Freq) (hP : 0 ≤ rate.Per) :
    TickCount rate StartState.init ∧ LateLaunches rate StartState.init ∧
      Pace rate StartState.init := by
  refine ⟨?_, ⟨fun _ => rfl, ?_⟩, ?_, ?_, ?_⟩
  · simp [TickCount, StartState.init]
  · simpa [StartState.init] using hF
  · simp [StartState.init]
  · simpa [StartState.init] using hP
  · simp [StartState.init]

theorem noLaunch_step (rate : Rate) (duration : Int) (hF : rate.Freq ≤ 0)
    (s s' : StartState) (e : Event) (hs : NoLaunch s)
    (h : stepStart rate duration s e = some s') : NoLaunch s' := by
  obtain ⟨now, ctxDone, cancelled, dispatch, ticks, launched, late⟩ := s
  cases e with
  | advance dt =>
    simp only [stepStart, Option.some.injEq] at h
    subst h
    exact hs
  | ctxCancel =>
    simp only [stepStart, Option.some.injEq] at h
    subst h
    exact hs
  | stop =>
    simp only [stepStart] at h
    split_ifs at h
    simp only [Option.some.injEq] at h
    subst h
    exact hs
  | dispatch =>
    obtain ⟨h1, h2⟩ := hs
    simp only at h1 h2
    cases dispatch with
    | atSelect =>
      simp only [stepStart] at h
      split_ifs at h <;> simp only [Option.some.injEq] at h <;> subst h
      · exact ⟨h1, trivial⟩
      · exact ⟨h1, le_refl 0⟩
    | launching i =>
      simp only [stepStart] at h
      simp only at h2
      by_cases hi : i < rate.Freq
      · omega
      · rw [if_neg hi] at h
        simp only [Option.some.injEq] at h
        subst h
        exact ⟨h1, trivial⟩
    | sleeping due =>
      simp only [stepStart] at h
      split_ifs at h
      simp only [Option.some.injEq] at h
      subst h
      exact ⟨h1, trivial⟩
    | returned =>
      simp [stepStart] at h

theorem noLaunch_run (rate : Rate) (duration : Int) (hF : rate.Freq ≤ 0)
    (schedule : List Event) (s s' : StartState) (hs : NoLaunch s)
    (h : runStart rate duration s schedule = some s') : NoLaunch s' := by
  induction schedule generalizing s with
  | nil =>
    simp only [runStart, Option.some.injEq] at h
    subst h
    exact hs
  | cons e rest ih =>
    simp only [runStart] at h
    cases hstep : stepStart rate duration s e with
    | none => rw [hstep] at h; cases h
    | some s1 =>
      rw [hstep] at h
      exact ih s1 (noLaunch_step rate duration hF s s1 e hs hstep) h


/-- C9, as stated, fails: with `rate.Per = 0` and `duration = 0`, both invalid, the
dispatch loop passes its `select` and launches an invocation of `fn`; nothing in
`Start` rejects the call. -/
theorem start_accepts_invalid_configuration :
    (({ Freq := 1, Per := 0 } : Rate).Per ≤ 0 ∧ (0 : Int) ≤ 0) ∧
      Start { Freq := 1, Per := 0 } 0 [.dispatch, .dispatch] =
        some { now := 0, ctxDone := false, cancelled := false, dispatch := .launching 1,
               ticks := 1, launched := 1, launchedAfterCancel := 0 } := by
  decide

/-- C9, as the code has it: `Start` checks nothing and has no error result; with
`rate.Freq <= 0` no execution of `Start` launches an invocation of `fn`, whatever
`rate.Per` and `duration` are. -/
theorem start_nonpositive_freq_launches_nothing (rate : Rate) (duration : Int)
    (schedule : List Event) (s : StartState) (hF : rate.Freq ≤ 0)
    (h : Start rate duration schedule = some s) : s.launched = 0 :=
  (noLaunch_run rate duration hF schedule StartState.init s ⟨rfl, trivial⟩ h).1

theorem start_nonpositive_freq_launches_nothing_witness :
    (({ Freq := 0, Per := 10 } : Rate).Freq ≤ 0 ∧
      Start { Freq := 0, Per := 10 } 100 [.dispatch, .dispatch, .advance 10, .dispatch] =
        some { now := 10, ctxDone := false, cancelled := false, dispatch := .atSelect,
               ticks := 1, launched := 0, launchedAfterCancel := 0 }) ∧
      ({ now := 10, ctxDone := false, cancelled := false, dispatch := .atSelect,
         ticks := 1, launched := 0, launchedAfterCancel := 0 } : StartState).launched = 0 :=
  ⟨⟨by decide, by decide⟩,
    start_nonpositive_freq_launches_nothing { Freq := 0, Per := 10 } 100
      [.dispatch, .dispatch, .advance 10, .dispatch] _ (by decide) (by decide)⟩

/-- C10, as stated, fails: with the valid rate of 2 per 10 ns and a duration of 100 ns,
(1) when `cancel()` is called after the loop has passed its `select`, both invocations
of the tick are launched after the drain has begun, and (2) when the caller cancels
`ctx` at once, nothing is launched, although `Freq * ceil(duration / Per)` is 20 and a
tick is 2. -/
theorem start_launches_after_cancel :
    Start { Freq := 2, Per := 10 } 100
        [.dispatch, .advance 100, .stop, .dispatch, .dispatch] =
        some { now := 100, ctxDone := false, cancelled := true, dispatch := .launching 2,
               ticks := 1, launched := 2, launchedAfterCancel := 2 } ∧
      Start { Freq := 2, Per := 10 } 100 [.ctxCancel, .stop, .dispatch] =
        some { now := 0, ctxDone := true, cancelled := true, dispatch := .returned,
               ticks := 0, launched := 0, launchedAfterCancel := 0 } ∧
      (2 : Int) * ((100 + 10 - 1) / 10) = 20 := by
  decide

theorem ticks_step_of_done (rate : Rate) (duration : Int) (s s' : StartState) (e : Event)
    (hd : s.ctxDone = true ∨ s.cancelled = true)
    (h : stepStart rate duration s e = some s') : s'.ticks = s.ticks := by
  obtain ⟨now, ctxDone, cancelled, dispatch, ticks, launched, late⟩ := s
  simp only at hd
  cases e with
  | advance dt =>
    simp only [stepStart, Option.some.injEq] at h
    subst h
    rfl
  | ctxCancel =>
    simp only [stepStart, Option.some.injEq] at h
    subst h
    rfl
  | stop =>
    simp only [stepStart] at h
    split_ifs at h
    simp only [Option.some.injEq] at h
    subst h
    rfl
  | dispatch =>
    cases dispatch with
    | atSelect =>
      simp only [stepStart] at h
      rw [if_pos hd] at h
      simp only [Option.some.injEq] at h
      subst h
      rfl
    | launching i =>
      simp only [stepStart] at h
      by_cases hi : i < rate.Freq
      · rw [if_pos hi] at h
        simp only [Option.some.injEq] at h
        subst h
        rfl
      · rw [if_neg hi] at h
        simp only [Option.some.injEq] at h
        subst h
        rfl
    | sleeping due =>
      simp only [stepStart] at h
      split_ifs at h
      simp only [Option.some.injEq] at h
      subst h
      rfl
    | returned =>
      simp [stepStart] at h

/-- C10, as the code has it: for a valid rate, in every state of every execution of
`Start`, each finished tick has launched exactly `rate.Freq` invocations (outside a
tick `launched = Freq * ticks`, inside a tick the loop variable `i` counts those of the
tick under way); ticks begin at least `rate.Per` apart; nothing counts as launched
after `cancel()` before `cancel()` is called, at most `rate.Freq` invocations (the rest
of the tick under way) are launched after it, and once `ctx` is done or `cancel()` was
called no further tick begins. -/
theorem start_ticks_launch_freq (rate : Rate) (duration : Int) (schedule : List Event)
    (s : StartState) (hF : 1 ≤ rate.Freq) (hP : 0 < rate.Per)
    (h : Start rate duration schedule = some s) :
    (∀ i : Int, s.dispatch = .launching i →
        0 ≤ i ∧ i ≤ rate.Freq ∧
          (s.launched : Int) = rate.Freq * ((s.ticks : Int) - 1) + i) ∧
      ((∀ i : Int, s.dispatch ≠ .launching i) →
        (s.launched : Int) = rate.Freq * (s.ticks : Int)) ∧
      (s.launched : Int) ≤ rate.Freq * (s.ticks : Int) ∧
      ((s.ticks : Int) - 1) * rate.Per ≤ s.now ∧
      (s.cancelled = false → s.launchedAfterCancel = 0) ∧
      (s.launchedAfterCancel : Int) ≤ rate.Freq ∧
      (∀ (e : Event) (s' : StartState), (s.ctxDone = true ∨ s.cancelled = true) →
        stepStart rate duration s e = some s' → s'.ticks = s.ticks) := by
  obtain ⟨hT, hL, hPace⟩ := invariants_run rate duration (by omega) schedule
    StartState.init s (invariants_init rate (by omega) (by omega)) h
  obtain ⟨now, ctxDone, cancelled, dispatch, ticks, launched, late⟩ := s
  refine ⟨?_, ?_, ?_, hPace.2.1, hL.1, ?_, ?_⟩
  · intro i hi
    simp only at hi
    subst hi
    simp only [TickCount] at hT
    exact ⟨hT.1, hT.2.1, hT.2.2.2⟩
  · intro hne
    cases dispatch with
    | launching i => exact absurd rfl (hne i)
    | atSelect => simpa [TickCount] using hT
    | sleeping due => simpa [TickCount] using hT
    | returned => simpa [TickCount] using hT
  · cases dispatch with
    | launching i =>
      simp only [TickCount] at hT
      obtain ⟨-, hle, -, hl⟩ := hT
      simp only
      rw [hl]
      linarith
    | atSelect => exact le_of_eq (by simpa [TickCount] using hT)
    | sleeping due => exact le_of_eq (by simpa [TickCount] using hT)
    | returned => exact le_of_eq (by simpa [TickCount] using hT)
  · cases dispatch with
    | launching i =>
      simp only [TickCount] at hT
      have h2 := hL.2
      simp only at h2 ⊢
      omega
    | atSelect => exact hL.2
    | sleeping due => exact hL.2
    | returned => exact hL.2
  · intro e s' hd hstep
    exact ticks_step_of_done rate duration _ s' e hd hstep

theorem start_ticks_launch_freq_witness :
    ((1 : Int) ≤ ({ Freq := 2, Per := 10 } : Rate).Freq ∧
      (0 : Int) < ({ Freq := 2, Per := 10 } : Rate).Per ∧
      Start { Freq := 2, Per := 10 } 100
        [.dispatch, .dispatch, .dispatch, .dispatch, .advance 10, .dispatch, .dispatch,
          .dispatch] =
        some { now := 10, ctxDone := false, cancelled := false, dispatch := .launching 1,
               ticks := 2, launched := 3, launchedAfterCancel := 0 }) ∧
      ((3 : Nat) : Int) = 2 * (((2 : Nat) : Int) - 1) + 1 :=
  ⟨⟨by decide, by decide, by decide⟩,
    ((start_ticks_launch_freq { Freq := 2, Per := 10 } 100
      [.dispatch, .dispatch, .dispatch, .dispatch, .advance 10, .dispatch, .dispatch,
        .dispatch]
      { now := 10, ctxDone := false, cancelled := false, dispatch := .launching 1,
        ticks := 2, launched := 3, launchedAfterCancel := 0 }
      (by decide) (by decide) (by decide)).1 1 rfl).2.2⟩

/-! ## Maximum and minimum of a latency summary -/

theorem foldl_Add_Max_bounds (xs : List Int) (l : LatencyMetrics) :
    (∀ x ∈ xs, x ≤ (xs.foldl LatencyMetrics.Add l).Max) ∧
      l.Max ≤ (xs.foldl LatencyMetrics.Add l).Max ∧
      ((xs.foldl LatencyMetrics.Add l).Max = l.Max ∨
        (xs.foldl LatencyMetrics.Add l).Max ∈ xs) := by
  induction xs generalizing l with
  | nil => simp
  | cons x rest ih =>
    obtain ⟨h1, h2, h3⟩ := ih (l.Add x)
    rw [Add_Max] at h2 h3
    rw [List.foldl_cons]
    refine ⟨?_, ?_, ?_⟩
    · intro y hy
      rcases List.mem_cons.1 hy with rfl | hy
      · split_ifs at h2 <;> omega
      · exact h1 y hy
    · split_ifs at h2 <;> omega
    · rcases h3 with h3 | h3
      · split_ifs at h3 with hx
        · exact Or.inr (by rw [h3]; exact List.mem_cons_self _ _)
        · exact Or.inl h3
      · exact Or.inr (List.mem_cons_of_mem _ h3)

theorem foldl_Add_Min_mem (xs : List Int) (l : LatencyMetrics) :
    (xs.foldl LatencyMetrics.Add l).Min = l.Min ∨
      (xs.foldl LatencyMetrics.Add l).Min ∈ xs := by
  induction xs generalizing l with
  | nil => simp
  | cons x rest ih =>
    rw [List.foldl_cons]
    rcases ih (l.Add x) with h | h
    · rw [Add_Min] at h
      split_ifs at h with hx
      · exact Or.inr (by rw [h]; exact List.mem_cons_self _ _)
      · exact Or.inl h
    · exact Or.inr (List.mem_cons_of_mem _ h)

/-- C11: after the latencies of a non-empty sequence of non-negative latencies were
added one by one with `LatencyMetrics.Add` to a fresh `LatencyMetrics`, `Max` is the
maximum of the sequence (one of its members and not below any of them), `Min` is one of
the latencies added, and `Min <= Max`. -/
theorem add_max_exact_min_member (xs : List Int) (hne : xs ≠ [])
    (hnn : ∀ x ∈ xs, 0 ≤ x) :
    ((xs.foldl LatencyMetrics.Add newLatencyMetrics).Max ∈ xs ∧
        ∀ x ∈ xs, x ≤ (xs.foldl LatencyMetrics.Add newLatencyMetrics).Max) ∧
      (xs.foldl LatencyMetrics.Add newLatencyMetrics).Min ∈ xs ∧
      (xs.foldl LatencyMetrics.Add newLatencyMetrics).Min ≤
        (xs.foldl LatencyMetrics.Add newLatencyMetrics).Max := by
  obtain ⟨hub, -, hmax⟩ := foldl_Add_Max_bounds xs newLatencyMetrics
  have hMaxMem : (xs.foldl LatencyMetrics.Add newLatencyMetrics).Max ∈ xs := by
    rcases hmax with h0 | hmem
    · cases xs with
      | nil => exact absurd rfl hne
      | cons x rest =>
        have hx0 : 0 ≤ x := hnn x (List.mem_cons_self _ _)
        have hxle := hub x (List.mem_cons_self _ _)
        rw [h0] at hxle ⊢
        have hx : x = 0 := le_antisymm hxle hx0
        rw [hx]
        exact List.mem_cons_self _ _
    · exact hmem
  have hMinMem : (xs.foldl LatencyMetrics.Add newLatencyMetrics).Min ∈ xs := by
    cases xs with
    | nil => exact absurd rfl hne
    | cons x rest =>
      rw [List.foldl_cons]
      have hfirst : (newLatencyMetrics.Add x).Min = x := by
        rw [Add_Min]
        simp [newLatencyMetrics]
      rcases foldl_Add_Min_mem rest (newLatencyMetrics.Add x) with h | h
      · rw [h, hfirst]
        exact List.mem_cons_self _ _
      · exact List.mem_cons_of_mem _ h
  exact ⟨⟨hMaxMem, hub⟩, hMinMem, hub _ hMinMem⟩

theorem add_max_exact_min_member_witness :
    (([5, 0, 3, 4] : List Int) ≠ [] ∧ ∀ x ∈ ([5, 0, 3, 4] : List Int), 0 ≤ x) ∧
      (([5, 0, 3, 4].foldl LatencyMetrics.Add newLatencyMetrics).Max ∈
          ([5, 0, 3, 4] : List Int) ∧
        ∀ x ∈ ([5, 0, 3, 4] : List Int),
          x ≤ ([5, 0, 3, 4].foldl LatencyMetrics.Add newLatencyMetrics).Max) ∧
      ([5, 0, 3, 4].foldl LatencyMetrics.Add newLatencyMetrics).Min ∈
        ([5, 0, 3, 4] : List Int) ∧
      ([5, 0, 3, 4].foldl LatencyMetrics.Add newLatencyMetrics).Min ≤
        ([5, 0, 3, 4].foldl LatencyMetrics.Add newLatencyMetrics).Max :=
  ⟨⟨by decide, by decide⟩,
    add_max_exact_min_member [5, 0, 3, 4] (by decide) (by decide)⟩

end loadtester
